import Mathlib

/-!
Lazy iterators of `iters/iters.go`.

A shallow embedding of the pull-based iterators of the `iters` package and of
the operations built on them (`FromSlice`, `Filter`, `Map`, `Take`, `Reduce`,
`ToSlice`), followed by theorems about them.

Modelling conventions:

* A Go closure is its captured variables together with its code.  An iterator
  value is therefore a record `Iter σ T` holding the current captured
  variables `env : σ` and the code `f` of its `Next` method, which maps the
  captured variables to a result and the updated captured variables.
* A call that does not return normally (it panics, or it does not finish
  within the loop budget `fuel` given to a `for` loop) evaluates to `none`.
* The zero value of a Go type `T` is `default : T`.
* A slice is either `nil` or a non-nil slice with a list of elements.
-/

namespace Iters

variable {σ T R : Type}

/-! ## Slices -/

/-- A Go slice: the nil slice, or a non-nil slice holding `elems`. -/
inductive Slice (T : Type) where
  | nil : Slice T
  | mk (elems : List T) : Slice T
  deriving DecidableEq, Repr

/-- The elements of a slice, in order; a nil slice has none. -/
def Slice.toList : Slice T → List T
  | .nil => []
  | .mk elems => elems

/-- Go `len(slice)`. -/
def Slice.len (s : Slice T) : Nat := s.toList.length

/-- Go `slice[i]`; `none` stands for the index-out-of-range panic. -/
def Slice.index (s : Slice T) (i : Nat) : Option T := s.toList[i]?

/-- Go `make([]T, 0)`: the empty, non-nil slice. -/
def Slice.make0 : Slice T := .mk []

/-- Go `append(slice, v)`; the result is never nil. -/
def Slice.append (s : Slice T) (v : T) : Slice T := .mk (s.toList ++ [v])

/-! ## Integer types of `Take` -/

/-- An integer type admitted by the constraint `c.Integer`: signed or unsigned,
of a given bit width.  The constraint itself lives in another package, so the
type is a parameter of `Take`. -/
structure IntType where
  signed : Bool
  bits : Nat
  deriving DecidableEq, Repr

/-- Smallest value of the integer type. -/
def IntType.minVal (ty : IntType) : Int :=
  if ty.signed then -((2 : Int) ^ (ty.bits - 1)) else 0

/-- Largest value of the integer type. -/
def IntType.maxVal (ty : IntType) : Int :=
  if ty.signed then (2 : Int) ^ (ty.bits - 1) - 1 else (2 : Int) ^ ty.bits - 1

/-- The values the integer type can hold. -/
def IntType.inRange (ty : IntType) (n : Int) : Prop :=
  ty.minVal ≤ n ∧ n ≤ ty.maxVal

instance (ty : IntType) (n : Int) : Decidable (ty.inRange n) := by
  unfold IntType.inRange; infer_instance

/-- Result of an arithmetic operation in the integer type: the mathematical
result reduced modulo `2 ^ bits` into the range of the type. -/
def IntType.wrap (ty : IntType) (x : Int) : Int :=
  if ty.signed then
    (x + (2 : Int) ^ (ty.bits - 1)) % (2 : Int) ^ ty.bits - (2 : Int) ^ (ty.bits - 1)
  else
    x % (2 : Int) ^ ty.bits

/-! ## Iterators -/

/-- An iterator (`Iter[T]`, implemented by `iFunc[T]`): the captured variables
`env` of the closure and the code `f` of the closure.  `f` returns the pair
`(value, more)` and the captured variables after the call, or `none` when the
call does not return normally. -/
structure Iter (σ T : Type) where
  env : σ
  f : σ → Option ((T × Bool) × σ)

/-- Method `Next` of `iFunc`: `return i.f()`.  The second component is the
iterator after the call. -/
def Iter.Next (i : Iter σ T) : Option ((T × Bool) × Iter σ T) :=
  match i.f i.env with
  | none => none
  | some (r, env') => some (r, { i with env := env' })

/-- `FromFunc` makes an iterator from the given function (a closure: its
captured variables and its code). -/
def FromFunc (env : σ) (f : σ → Option ((T × Bool) × σ)) : Iter σ T :=
  { env := env, f := f }

/-- `FromSlice` produces an iterator returning elements from the given slice.
The closure captures the cursor `next`, initially `0`.  `next` stays below
`len(slice)` before each increment, so the Go `int` is a natural number. -/
def FromSlice [Inhabited T] (slice : Slice T) : Iter Nat T :=
  FromFunc 0 (fun next =>
    if next ≥ slice.len then
      some ((default, false), next)
    else
      match slice.index next with
      | none => none
      | some v => some ((v, true), next + 1))

/-- The iterator `FromSlice slice` when its cursor stands at `next`. -/
def FromSlice.atCursor [Inhabited T] (slice : Slice T) (next : Nat) : Iter Nat T :=
  { FromSlice slice with env := next }

/-- The `for` loop in the closure of `Filter`, bounded by `fuel` iterations. -/
def Filter.loop (f : T → Bool) : Nat → Iter σ T → Option ((T × Bool) × Iter σ T)
  | 0, _ => none
  | fuel + 1, it =>
    match it.Next with
    | none => none
    | some ((val, more), it') =>
      if !more then
        some ((val, false), it')
      else if f val then
        some ((val, true), it')
      else
        Filter.loop f fuel it'

/-- `Filter` returns an iterator of elements from the given iterator for which
the function returns true.  The closure captures the upstream iterator `it`;
each call of `Next` runs the loop with budget `fuel`. -/
def Filter (it : Iter σ T) (f : T → Bool) (fuel : Nat) : Iter (Iter σ T) T :=
  FromFunc it (fun it => Filter.loop f fuel it)

/-- `Map` returns an iterator of results of applying the function to each
element of the given iterator.  The closure captures the upstream `it`. -/
def Map [Inhabited R] (it : Iter σ T) (f : T → R) : Iter (Iter σ T) R :=
  FromFunc it (fun it =>
    match it.Next with
    | none => none
    | some ((val, more), it') =>
      if !more then
        some ((default, false), it')
      else
        some ((f val, true), it'))

/-- The loop of `Reduce`, bounded by `fuel` iterations.  `calls` is a ghost
counter of the invocations of `f`; it is not part of the Go result. -/
def Reduce.loop (f : T → R → R) :
    Nat → Iter σ T → R → Nat → Option (R × Nat × Iter σ T)
  | 0, _, _, _ => none
  | fuel + 1, it, acc, calls =>
    match it.Next with
    | none => none
    | some ((val, more), it') =>
      if !more then
        some (acc, calls, it')
      else
        Reduce.loop f fuel it' (f val acc) (calls + 1)

/-- `Reduce` applies the function to acc and every iterator element and
returns the acc.  Returned with the acc: the number of invocations of `f`
(ghost) and the iterator as the loop left it. -/
def Reduce (it : Iter σ T) (acc : R) (f : T → R → R) (fuel : Nat) :
    Option (R × Nat × Iter σ T) :=
  Reduce.loop f fuel it acc 0

/-- `Take` returns an iterator returning only the first n items from the given
iterator.  The closure captures the counter `n`, of integer type `ty`, and the
upstream `it`. -/
def Take [Inhabited T] (ty : IntType) (it : Iter σ T) (n : Int) :
    Iter (Int × Iter σ T) T :=
  FromFunc (n, it) (fun (n, it) =>
    if n ≤ 0 then
      some ((default, false), (n, it))
    else
      let n := ty.wrap (n - 1)
      match it.Next with
      | none => none
      | some (r, it') => some (r, (n, it')))

/-- The loop of `ToSlice`, bounded by `fuel` iterations. -/
def ToSlice.loop : Nat → Iter σ T → Slice T → Option (Slice T × Iter σ T)
  | 0, _, _ => none
  | fuel + 1, it, res =>
    match it.Next with
    | none => none
    | some ((val, more), it') =>
      if !more then
        some (res, it')
      else
        ToSlice.loop fuel it' (res.append val)

/-- `ToSlice` converts the given iterator to a slice.  Returned with the
slice: the iterator as the loop left it. -/
def ToSlice (it : Iter σ T) (fuel : Nat) : Option (Slice T × Iter σ T) :=
  ToSlice.loop fuel it Slice.make0

/-! ## Runs of pulls and a pull-counting source -/

/-- The results of `k` consecutive calls of `Next`, and the iterator after
them; `none` when one of the calls does not return. -/
def Iter.pulls : Nat → Iter σ T → Option (List (T × Bool) × Iter σ T)
  | 0, it => some ([], it)
  | k + 1, it =>
    match it.Next with
    | none => none
    | some (r, it') =>
      match Iter.pulls k it' with
      | none => none
      | some (rs, it'') => some (r :: rs, it'')

/-- A pull-counting source: behaves as `it` and counts the calls made to
`it.Next()` in its first captured variable. -/
def Counted (it : Iter σ T) : Iter (Nat × Iter σ T) T :=
  FromFunc (0, it) (fun (c, it) =>
    match it.Next with
    | none => none
    | some (r, it') => some (r, (c + 1, it')))

/-- `Produces it xs z it1`: successive calls of `it.Next()` return the elements
of `xs` in order, each with `true`, and the call after them returns
`(z, false)`, leaving the iterator as `it1`. -/
inductive Produces : Iter σ T → List T → T → Iter σ T → Prop where
  | done {it it1 : Iter σ T} {z : T} :
      it.Next = some ((z, false), it1) → Produces it [] z it1
  | step {it it1 it2 : Iter σ T} {x z : T} {xs : List T} :
      it.Next = some ((x, true), it1) → Produces it1 xs z it2 →
      Produces it (x :: xs) z it2

/-- An iterator that never signals exhaustion: every run of consecutive calls
of `Next` returns, and each call returns `(v, true)`. -/
def NeverExhausted (it : Iter σ T) : Prop :=
  ∀ k : Nat, ∃ rs it1, it.pulls k = some (rs, it1) ∧ ∀ r ∈ rs, r.2 = true

/-- Number of calls made so far to the source wrapped by `Counted`. -/
def pullCount (it : Iter (Nat × Iter σ T) T) : Nat := it.env.1

/-- Number of elements among the results of a run of pulls. -/
def yields (rs : List (T × Bool)) : Nat := (rs.filter (fun r => r.2)).length

/-- An infinite source: the natural numbers from `0`, never exhausted. -/
def naturals : Iter Nat Nat :=
  FromFunc 0 (fun k => some ((k, true), k + 1))

/-- The pull-counting source around `it` when `c` calls have been made. -/
def CountedFrom (c : Nat) (it : Iter σ T) : Iter (Nat × Iter σ T) T :=
  { Counted it with env := (c, it) }

/-- An exhausted iterator: every run of further calls of `Next` returns, and
each call returns `(zero value, false)`. -/
def Exhausted [Inhabited T] (it : Iter σ T) : Prop :=
  ∀ k : Nat, ∃ it1, it.pulls k = some (List.replicate k (default, false), it1)

/-- Exhaustion stability: whenever, after any run of calls, a call of `Next`
returns `(_, false)`, the iterator is exhausted from then on. -/
def ExhaustionStable [Inhabited T] (it : Iter σ T) : Prop :=
  ∀ (j : Nat) (rs : List (T × Bool)) (it1 it2 : Iter σ T) (v : T),
    it.pulls j = some (rs, it1) → it1.Next = some ((v, false), it2) → Exhausted it2

/-- `it` yields exactly the finite sequence `xs`, each element with `true`,
and is exhausted after them. -/
def YieldsExactly [Inhabited T] (it : Iter σ T) (xs : List T) : Prop :=
  ∃ it1, it.pulls xs.length = some (xs.map (fun x => (x, true)), it1) ∧ Exhausted it1

/-- `Reach it it1`: some run of calls of `Next` on `it` leaves it as `it1`. -/
def Reach (it it1 : Iter σ T) : Prop :=
  ∃ (j : Nat) (rs : List (T × Bool)), it.pulls j = some (rs, it1)

/-! ## Channels -/

/-- A channel as its single receiver observes it: the values still to be
received, in the order in which the sender sends them, and whether the sender
closes the channel after the last of them.  Go delivers the values of a
channel in the order of the sends; when the sender runs is not modelled. -/
structure Chan (T : Type) where
  pending : List T
  closes : Bool
  deriving DecidableEq, Repr

/-- Go `v, ok := <-ch`, a blocking receive: the next value sent, with `true`;
the zero value with `false` once the channel is closed and drained; `none`
when no value is left and the channel is never closed (the receive blocks
forever). -/
def Chan.recv [Inhabited T] (ch : Chan T) : Option ((T × Bool) × Chan T) :=
  match ch.pending with
  | v :: rest => some ((v, true), { ch with pending := rest })
  | [] => if ch.closes then some ((default, false), ch) else none

/-- `FromChannel` produces an iterator returning elements from the given
channel: each call of `Next` is `v, ok := <-ch; return v, ok`. -/
def FromChannel [Inhabited T] (ch : Chan T) : Iter (Chan T) T :=
  FromFunc ch (fun ch =>
    match ch.recv with
    | none => none
    | some ((v, ok), ch') => some ((v, ok), ch'))

/-! ## Ghost instrumentation of the calls of the user functions -/

/-- The loop in the closure of `Filter` with a ghost log: the values to which
`f` has been applied, in order.  Without the log it is `Filter.loop`. -/
def Filter.loopLog (f : T → Bool) :
    Nat → Iter σ T → List T → Option (((T × Bool) × Iter σ T) × List T)
  | 0, _, _ => none
  | fuel + 1, it, log =>
    match it.Next with
    | none => none
    | some ((val, more), it') =>
      if !more then
        some (((val, false), it'), log)
      else if f val then
        some (((val, true), it'), log ++ [val])
      else
        Filter.loopLog f fuel it' (log ++ [val])

/-- The body of the closure of `Map` with a ghost count: the number of
invocations of `f` made by the call.  Without the count it is the closure of
`Map`. -/
def Map.bodyCalls [Inhabited R] (f : T → R) (it : Iter σ T) :
    Option (((R × Bool) × Iter σ T) × Nat) :=
  match it.Next with
  | none => none
  | some ((val, more), it') =>
    if !more then
      some (((default, false), it'), 0)
    else
      some (((f val, true), it'), 1)

/-- A source that signals exhaustion with a value other than the zero value:
every call of `Next` returns `(5, false)`. -/
def fiveFalse : Iter Unit Nat :=
  FromFunc () (fun u => some ((5, false), u))

/-! ## Basic facts -/

theorem FromSlice_atCursor_zero [Inhabited T] (s : Slice T) :
    FromSlice.atCursor s 0 = FromSlice s := rfl

theorem FromSlice_Next_lt [Inhabited T] (s : Slice T) (k : Nat) (h : k < s.len) :
    (FromSlice.atCursor s k).Next
      = some ((s.toList.get ⟨k, h⟩, true), FromSlice.atCursor s (k + 1)) := by
  have hk : ¬ (s.len ≤ k) := Nat.not_le.mpr h
  have hi : s.index k = some (s.toList.get ⟨k, h⟩) := by
    unfold Slice.index
    exact List.getElem?_eq_getElem h
  simp [FromSlice.atCursor, FromSlice, FromFunc, Iter.Next, hk, hi]

theorem FromSlice_Next_ge [Inhabited T] (s : Slice T) (k : Nat) (h : s.len ≤ k) :
    (FromSlice.atCursor s k).Next
      = some ((default, false), FromSlice.atCursor s k) := by
  simp [FromSlice.atCursor, FromSlice, FromFunc, Iter.Next, h]

theorem FromSlice_produces [Inhabited T] (s : Slice T) :
    ∀ (d k : Nat), k + d = s.len →
      Produces (FromSlice.atCursor s k) (s.toList.drop k) default
        (FromSlice.atCursor s s.len)
  | 0, k, h => by
    have hk : s.len ≤ k := by omega
    have hd : s.toList.drop k = [] := List.drop_of_length_le hk
    have hkk : k = s.len := by omega
    rw [hd]
    refine Produces.done ?_
    rw [FromSlice_Next_ge s k hk, hkk]
  | d + 1, k, h => by
    have hk : k < s.len := by omega
    have hd : s.toList.drop k = s.toList.get ⟨k, hk⟩ :: s.toList.drop (k + 1) := by
      exact List.drop_eq_getElem_cons hk
    rw [hd]
    exact Produces.step (FromSlice_Next_lt s k hk)
      (FromSlice_produces s d (k + 1) (by omega))

theorem ToSlice_loop_produces {it it1 : Iter σ T} {xs : List T} {z : T}
    (h : Produces it xs z it1) :
    ∀ (fuel : Nat) (ys : List T), xs.length < fuel →
      ToSlice.loop fuel it (Slice.mk ys) = some (Slice.mk (ys ++ xs), it1) := by
  induction h with
  | done hn =>
    intro fuel ys hf
    cases fuel with
    | zero => omega
    | succ fuel => simp [ToSlice.loop, hn]
  | @step _ _ _ x _ _ hn _ ih =>
    intro fuel ys hf
    cases fuel with
    | zero => omega
    | succ fuel =>
      have := ih fuel (ys ++ [x]) (by simpa using hf)
      simp [ToSlice.loop, hn, this, Slice.append, Slice.toList]

theorem ToSlice_produces {it it1 : Iter σ T} {xs : List T} {z : T}
    (h : Produces it xs z it1) (fuel : Nat) (hf : xs.length < fuel) :
    ToSlice it fuel = some (Slice.mk xs, it1) := by
  have := ToSlice_loop_produces h fuel [] hf
  simpa [ToSlice, Slice.make0] using this

theorem Produces_of_Next_eq {it it0 : Iter σ T} {xs : List T} {z : T} {it1 : Iter σ T}
    (hn : it.Next = it0.Next) (h : Produces it0 xs z it1) : Produces it xs z it1 := by
  cases h with
  | done h0 => exact Produces.done (hn.trans h0)
  | step h0 hr => exact Produces.step (hn.trans h0) hr

theorem FromFunc_Next (e : σ) (g : σ → Option ((T × Bool) × σ)) :
    (FromFunc e g).Next = (g e).map (fun r => (r.1, FromFunc r.2 g)) := by
  unfold Iter.Next FromFunc
  cases h : g e <;> simp [h]

theorem Filter_Next (it : Iter σ T) (p : T → Bool) (fuel : Nat) :
    (Filter it p fuel).Next
      = (Filter.loop p fuel it).map (fun r => (r.1, Filter r.2 p fuel)) := by
  unfold Filter
  rw [FromFunc_Next]

theorem Filter_loop_mono (p : T → Bool) :
    ∀ (fuel : Nat) (it : Iter σ T) (r : (T × Bool) × Iter σ T),
      Filter.loop p fuel it = some r → Filter.loop p (fuel + 1) it = some r
  | 0, it, r, h => by simp [Filter.loop] at h
  | fuel + 1, it, r, h => by
    rw [Filter.loop] at h
    rw [Filter.loop]
    cases hn : it.Next with
    | none => simp [hn] at h
    | some q =>
      obtain ⟨⟨val, more⟩, it'⟩ := q
      simp only [hn] at h ⊢
      cases more with
      | false => simpa using h
      | true =>
        by_cases hp : p val = true
        · simpa [hp] using h
        · simp only [Bool.not_true, hp] at h ⊢
          exact Filter_loop_mono p fuel it' r (by simpa using h)

theorem Filter_loop_isSome (p : T → Bool) {it it1 : Iter σ T} {xs : List T} {z : T}
    (h : Produces it xs z it1) :
    ∀ (fuel : Nat), xs.length < fuel → ∃ r, Filter.loop p fuel it = some r := by
  induction h with
  | done hn =>
    intro fuel hf
    cases fuel with
    | zero => omega
    | succ fuel => simp [Filter.loop, hn]
  | @step _ _ _ x _ _ hn _ ih =>
    intro fuel hf
    cases fuel with
    | zero => omega
    | succ fuel =>
      by_cases hp : p x = true
      · simp [Filter.loop, hn, hp]
      · obtain ⟨r, hr⟩ := ih fuel (by simpa using hf)
        exact ⟨r, by simp [Filter.loop, hn, hp, hr]⟩

theorem Filter_produces (p : T → Bool) {it it1 : Iter σ T} {xs : List T} {z : T}
    (h : Produces it xs z it1) :
    ∀ (fuel : Nat), xs.length < fuel →
      Produces (Filter it p fuel) (xs.filter p) z (Filter it1 p fuel) := by
  induction h with
  | done hn =>
    intro fuel hf
    cases fuel with
    | zero => omega
    | succ fuel =>
      refine Produces.done ?_
      simp [Filter_Next, Filter.loop, hn]
  | @step it0 it1 _ x _ xs hn hrest ih =>
    intro fuel hf
    cases fuel with
    | zero => omega
    | succ fuel =>
      have hlen : xs.length < fuel := by simpa using hf
      have ih1 := ih (fuel + 1) (by omega)
      by_cases hp : p x = true
      · rw [List.filter_cons_of_pos hp]
        refine Produces.step ?_ ih1
        simp [Filter_Next, Filter.loop, hn, hp]
      · rw [List.filter_cons_of_neg hp]
        refine Produces_of_Next_eq ?_ ih1
        obtain ⟨r, hr⟩ := Filter_loop_isSome p hrest fuel hlen
        have hr1 := Filter_loop_mono p fuel it1 r hr
        rw [Filter_Next, Filter_Next, hr1]
        simp [Filter.loop, hn, hp, hr]

theorem Map_Next [Inhabited R] (it : Iter σ T) (f : T → R) :
    (Map it f).Next
      = match it.Next with
        | none => none
        | some ((val, more), it') =>
          if !more then some ((default, false), Map it' f)
          else some ((f val, true), Map it' f) := by
  unfold Map
  rw [FromFunc_Next]
  cases h : it.Next with
  | none => simp
  | some q =>
    obtain ⟨⟨val, more⟩, e⟩ := q
    cases more <;> simp

theorem Map_produces [Inhabited R] (f : T → R) {it it1 : Iter σ T} {xs : List T} {z : T}
    (h : Produces it xs z it1) :
    Produces (Map it f) (xs.map f) default (Map it1 f) := by
  induction h with
  | done hn => exact Produces.done (by simp [Map_Next, hn])
  | step hn _ ih => exact Produces.step (by simp [Map_Next, hn]) ih

theorem FromSlice_produces_all [Inhabited T] (s : Slice T) :
    Produces (FromSlice s) s.toList default (FromSlice.atCursor s s.len) := by
  have h := FromSlice_produces s s.len 0 (by omega)
  rwa [List.drop_zero, FromSlice_atCursor_zero] at h

theorem IntType.wrap_pred (ty : IntType) (n : Int) (hr : ty.inRange n) (hn : 0 < n) :
    ty.wrap (n - 1) = n - 1 ∧ ty.inRange (n - 1) := by
  obtain ⟨sg, b⟩ := ty
  unfold IntType.inRange IntType.minVal IntType.maxVal at hr
  unfold IntType.inRange IntType.minVal IntType.maxVal IntType.wrap
  cases sg with
  | false =>
    simp only [Bool.false_eq_true, if_false] at hr ⊢
    have hlt : n - 1 < (2 : Int) ^ b := by omega
    exact ⟨Int.emod_eq_of_lt (by omega) hlt, by omega, by omega⟩
  | true =>
    simp only [if_true] at hr ⊢
    cases b with
    | zero =>
      simp at hr
      omega
    | succ c =>
      have hpos : (0 : Int) < (2 : Int) ^ c := by positivity
      have hM : (2 : Int) ^ (c + 1) = 2 * (2 : Int) ^ c := by ring
      simp only [Nat.add_sub_cancel] at hr ⊢
      rw [hM]
      have h1 : (n - 1 + (2 : Int) ^ c) % (2 * (2 : Int) ^ c) = n - 1 + (2 : Int) ^ c :=
        Int.emod_eq_of_lt (by omega) (by omega)
      rw [h1]
      exact ⟨by omega, by omega, by omega⟩

theorem Take_Next_nonpos [Inhabited T] (ty : IntType) (it : Iter σ T) (n : Int)
    (hn : n ≤ 0) :
    (Take ty it n).Next = some ((default, false), Take ty it n) := by
  unfold Take
  rw [FromFunc_Next]
  simp [hn]

theorem Take_Next_pos [Inhabited T] (ty : IntType) (it : Iter σ T) (n : Int)
    (hn : 0 < n) :
    (Take ty it n).Next
      = it.Next.map (fun r => (r.1, Take ty r.2 (ty.wrap (n - 1)))) := by
  have hn' : ¬ n ≤ 0 := by omega
  unfold Take
  rw [FromFunc_Next]
  cases h : it.Next <;> simp [hn', h]

theorem pulls_stable {it : Iter σ T} {r : T × Bool} (h : it.Next = some (r, it)) :
    ∀ k : Nat, it.pulls k = some (List.replicate k r, it)
  | 0 => rfl
  | k + 1 => by
    rw [Iter.pulls, h]
    simp [pulls_stable h k, List.replicate_succ]

theorem Take_produces_prefix [Inhabited T] (ty : IntType) {it it1 : Iter σ T}
    {xs : List T} {z : T} (h : Produces it xs z it1) :
    ∀ n : Int, ty.inRange n →
      ∃ z1 tk, Produces (Take ty it n) (xs.take n.toNat) z1 tk := by
  induction h with
  | @done it0 it1 z hn =>
    intro n _
    rw [List.take_nil]
    by_cases h0 : n ≤ 0
    · exact ⟨_, _, Produces.done (Take_Next_nonpos ty it0 n h0)⟩
    · refine ⟨z, Take ty it1 (ty.wrap (n - 1)), Produces.done ?_⟩
      rw [Take_Next_pos ty it0 n (by omega), hn]
      rfl
  | @step it0 it1 _ x _ xs hn _ ih =>
    intro n hr
    by_cases h0 : n ≤ 0
    · have : n.toNat = 0 := Int.toNat_eq_zero.mpr h0
      rw [this, List.take_zero]
      exact ⟨_, _, Produces.done (Take_Next_nonpos ty it0 n h0)⟩
    · have hpos : 0 < n := by omega
      obtain ⟨hw, hr1⟩ := ty.wrap_pred n hr hpos
      obtain ⟨z1, tk, hp⟩ := ih (n - 1) hr1
      have ht : n.toNat = (n - 1).toNat + 1 := by omega
      rw [ht, List.take_succ_cons]
      refine ⟨z1, tk, Produces.step ?_ hp⟩
      rw [Take_Next_pos ty it0 n hpos, hn, hw]
      rfl

theorem yields_nil : yields ([] : List (T × Bool)) = 0 := rfl

theorem yields_cons_le (r : T × Bool) (rs : List (T × Bool)) :
    yields rs ≤ yields (r :: rs) ∧ yields (r :: rs) ≤ yields rs + 1 := by
  unfold yields
  rw [List.filter_cons]
  split <;> simp

theorem pulls_succ_inv {it tk : Iter σ T} {k : Nat} {rs : List (T × Bool)}
    (h : it.pulls (k + 1) = some (rs, tk)) :
    ∃ r it1 rs1, it.Next = some (r, it1) ∧ it1.pulls k = some (rs1, tk)
      ∧ rs = r :: rs1 := by
  rw [Iter.pulls] at h
  cases hn : it.Next with
  | none => simp [hn] at h
  | some q =>
    obtain ⟨r, it1⟩ := q
    simp only [hn] at h
    cases hp : it1.pulls k with
    | none => simp [hp] at h
    | some q1 =>
      obtain ⟨rs1, tk1⟩ := q1
      simp only [hp, Option.some.injEq, Prod.mk.injEq] at h
      exact ⟨r, it1, rs1, rfl, by rw [hp, h.2], h.1.symm⟩

theorem Take_pulls_bound [Inhabited T] (ty : IntType) :
    ∀ (j : Nat) (n : Int) (up : Iter σ T) (rs : List (T × Bool))
      (tk : Iter (Int × Iter σ T) T),
      ty.inRange n → 0 ≤ n → (Take ty up n).pulls j = some (rs, tk) →
      ∃ up1 n1, tk = Take ty up1 n1 ∧ 0 ≤ n1 ∧ (yields rs : Int) + n1 ≤ n
  | 0, n, up, rs, tk, _, h0, h => by
    simp only [Iter.pulls, Option.some.injEq, Prod.mk.injEq] at h
    refine ⟨up, n, h.2.symm, h0, ?_⟩
    rw [← h.1, yields_nil]
    simp
  | j + 1, n, up, rs, tk, hr, h0, h => by
    obtain ⟨r, it1, rs1, hn, hp, rfl⟩ := pulls_succ_inv h
    have hy := yields_cons_le r rs1
    by_cases hz : n ≤ 0
    · rw [Take_Next_nonpos ty up n hz] at hn
      simp only [Option.some.injEq, Prod.mk.injEq] at hn
      rw [← hn.2] at hp
      obtain ⟨up1, n1, ht, hn1, hb⟩ := Take_pulls_bound ty j n up rs1 tk hr h0 hp
      refine ⟨up1, n1, ht, hn1, ?_⟩
      have : yields (r :: rs1) = yields rs1 := by
        rw [← hn.1]; rfl
      rw [this]
      exact hb
    · have hpos : 0 < n := by omega
      obtain ⟨hw, hr1⟩ := ty.wrap_pred n hr hpos
      rw [Take_Next_pos ty up n hpos, hw] at hn
      cases hu : up.Next with
      | none => simp [hu] at hn
      | some q =>
        simp only [hu, Option.map_some', Option.some.injEq, Prod.mk.injEq] at hn
        rw [← hn.2] at hp
        obtain ⟨up1, n1, ht, hn1, hb⟩ :=
          Take_pulls_bound ty j (n - 1) q.2 rs1 tk hr1 (by omega) hp
        exact ⟨up1, n1, ht, hn1, by omega⟩

theorem pulls_succ_of_Next {it it1 tk : Iter σ T} {r : T × Bool} {k : Nat}
    {rs : List (T × Bool)} (hn : it.Next = some (r, it1))
    (hp : it1.pulls k = some (rs, tk)) :
    it.pulls (k + 1) = some (r :: rs, tk) := by
  rw [Iter.pulls, hn]
  simp [hp]

theorem Take_produces_pulls [Inhabited T] (ty : IntType) :
    ∀ (m : Nat) (it it1 : Iter σ T) (rs : List (T × Bool)),
      it.pulls m = some (rs, it1) → (∀ r ∈ rs, r.2 = true) → ty.inRange (m : Int) →
      Produces (Take ty it (m : Int)) (rs.map Prod.fst) default (Take ty it1 0)
  | 0, it, it1, rs, h, _, _ => by
    simp only [Iter.pulls, Option.some.injEq, Prod.mk.injEq] at h
    rw [← h.1, ← h.2]
    exact Produces.done (Take_Next_nonpos ty it 0 (le_refl 0))
  | m + 1, it, it1, rs, h, ht, hr => by
    obtain ⟨r, i1, rs1, hn, hp, rfl⟩ := pulls_succ_inv h
    have hpos : (0 : Int) < ((m + 1 : Nat) : Int) := by omega
    obtain ⟨hw, hr1⟩ := ty.wrap_pred _ hr hpos
    have hm : ((m + 1 : Nat) : Int) - 1 = (m : Int) := by omega
    rw [hm] at hw hr1
    have hr2 : r.2 = true := ht r (List.mem_cons_self _ _)
    have ih := Take_produces_pulls ty m i1 it1 rs1 hp
      (fun q hq => ht q (List.mem_cons_of_mem _ hq)) hr1
    rw [List.map_cons]
    refine Produces.step ?_ ih
    rw [Take_Next_pos ty it _ hpos, hn, hm, hw]
    simp [← hr2]

theorem NeverExhausted_of_code (it : Iter σ T)
    (h : ∀ e, ∃ v e1, it.f e = some ((v, true), e1)) : NeverExhausted it := by
  intro k
  suffices H : ∀ (k : Nat) (e : σ), ∃ rs it1,
      Iter.pulls k { it with env := e } = some (rs, it1) ∧ ∀ r ∈ rs, r.2 = true from
    H k it.env
  intro k
  induction k with
  | zero => exact fun e => ⟨[], _, rfl, by simp⟩
  | succ k ih =>
    intro e
    obtain ⟨v, e1, he⟩ := h e
    obtain ⟨rs, it1, hp, ht⟩ := ih e1
    have hn : Iter.Next { it with env := e }
        = some ((v, true), { it with env := e1 }) := by
      simp [Iter.Next, he]
    refine ⟨(v, true) :: rs, it1, pulls_succ_of_Next hn hp, ?_⟩
    intro r hr
    rcases List.mem_cons.mp hr with rfl | hr
    · rfl
    · exact ht r hr

theorem Reduce_loop_produces (f : T → R → R) {it it1 : Iter σ T} {xs : List T} {z : T}
    (h : Produces it xs z it1) :
    ∀ (fuel : Nat) (acc : R) (calls : Nat), xs.length < fuel →
      Reduce.loop f fuel it acc calls
        = some (xs.foldl (fun a x => f x a) acc, calls + xs.length, it1) := by
  induction h with
  | done hn =>
    intro fuel acc calls hf
    cases fuel with
    | zero => omega
    | succ fuel => simp [Reduce.loop, hn]
  | @step _ _ _ x _ _ hn _ ih =>
    intro fuel acc calls hf
    cases fuel with
    | zero => omega
    | succ fuel =>
      have := ih fuel (f x acc) (calls + 1) (by simpa using hf)
      simp [Reduce.loop, hn, this]
      omega

theorem FromSlice_pulls_le [Inhabited T] (s : Slice T) :
    ∀ (j k : Nat), k + j ≤ s.len →
      (FromSlice.atCursor s k).pulls j
        = some (((s.toList.drop k).take j).map (fun x => (x, true)),
            FromSlice.atCursor s (k + j))
  | 0, k, _ => by simp [Iter.pulls]
  | j + 1, k, h => by
    have hk : k < s.len := by omega
    have hd : s.toList.drop k = s.toList.get ⟨k, hk⟩ :: s.toList.drop (k + 1) :=
      List.drop_eq_getElem_cons hk
    have ih := FromSlice_pulls_le s j (k + 1) (by omega)
    have hkj : k + 1 + j = k + (j + 1) := by omega
    rw [pulls_succ_of_Next (FromSlice_Next_lt s k hk) ih, hd, List.take_succ_cons,
      List.map_cons, hkj]

theorem FromSlice_exhausted_produces [Inhabited T] (s : Slice T) :
    Produces (FromSlice.atCursor s s.len) [] default (FromSlice.atCursor s s.len) :=
  Produces.done (FromSlice_Next_ge s s.len (le_refl _))

theorem pulls_length :
    ∀ (k : Nat) (it it1 : Iter σ T) (rs : List (T × Bool)),
      it.pulls k = some (rs, it1) → rs.length = k
  | 0, it, it1, rs, h => by
    simp only [Iter.pulls, Option.some.injEq, Prod.mk.injEq] at h
    rw [← h.1]
    rfl
  | k + 1, it, it1, rs, h => by
    obtain ⟨r, i1, rs1, _, hp, rfl⟩ := pulls_succ_inv h
    rw [List.length_cons, pulls_length k i1 it1 rs1 hp]

theorem FromChannel_Next [Inhabited T] (ch : Chan T) :
    (FromChannel ch).Next = ch.recv.map (fun r => (r.1, FromChannel r.2)) := by
  unfold FromChannel
  rw [FromFunc_Next]
  cases h : ch.recv with
  | none => simp
  | some q =>
    obtain ⟨⟨v, ok⟩, c1⟩ := q
    simp

theorem FromChannel_produces [Inhabited T] :
    ∀ xs : List T,
      Produces (FromChannel ⟨xs, true⟩) xs default (FromChannel ⟨[], true⟩)
  | [] => Produces.done (by rw [FromChannel_Next]; rfl)
  | x :: xs =>
    Produces.step (by rw [FromChannel_Next]; rfl) (FromChannel_produces xs)

theorem pulls_append :
    ∀ (j k : Nat) (it it1 it2 : Iter σ T) (rs rs1 : List (T × Bool)),
      it.pulls j = some (rs, it1) → it1.pulls k = some (rs1, it2) →
      it.pulls (j + k) = some (rs ++ rs1, it2)
  | 0, k, it, it1, it2, rs, rs1, h, h1 => by
    simp only [Iter.pulls, Option.some.injEq, Prod.mk.injEq] at h
    rw [Nat.zero_add, h.2, ← h.1, List.nil_append]
    exact h1
  | j + 1, k, it, it1, it2, rs, rs1, h, h1 => by
    obtain ⟨r, i1, rs0, hn, hp, rfl⟩ := pulls_succ_inv h
    have ih := pulls_append j k i1 it1 it2 rs0 rs1 hp h1
    have hjk : j + 1 + k = (j + k) + 1 := by omega
    rw [hjk, List.cons_append]
    exact pulls_succ_of_Next hn ih

theorem Reach.refl (it : Iter σ T) : Reach it it := ⟨0, [], rfl⟩

theorem Reach.head {it it1 it2 : Iter σ T} {r : T × Bool}
    (hn : it.Next = some (r, it1)) (h : Reach it1 it2) : Reach it it2 := by
  obtain ⟨j, rs, hp⟩ := h
  exact ⟨j + 1, r :: rs, pulls_succ_of_Next hn hp⟩

theorem Reach.trans {it it1 it2 : Iter σ T} (h : Reach it it1) (h1 : Reach it1 it2) :
    Reach it it2 := by
  obtain ⟨j, rs, hp⟩ := h
  obtain ⟨k, rs1, hp1⟩ := h1
  exact ⟨j + k, rs ++ rs1, pulls_append j k it it1 it2 rs rs1 hp hp1⟩

theorem Exhausted_Next [Inhabited T] {it : Iter σ T} (h : Exhausted it) :
    ∃ it1, it.Next = some ((default, false), it1) ∧ Exhausted it1 := by
  obtain ⟨i1, h1⟩ := h 1
  obtain ⟨r, it1, rs1, hn, _, hrs⟩ := pulls_succ_inv h1
  have hr : r = (default, false) := by
    simp only [List.replicate_succ, List.cons.injEq] at hrs
    exact hrs.1.symm
  subst hr
  refine ⟨it1, hn, ?_⟩
  intro k
  obtain ⟨ik, hk⟩ := h (k + 1)
  obtain ⟨r2, it2, rs2, hn2, hp2, hrs2⟩ := pulls_succ_inv hk
  rw [hn] at hn2
  simp only [Option.some.injEq, Prod.mk.injEq] at hn2
  obtain ⟨_, rfl⟩ := hn2
  simp only [List.replicate_succ, List.cons.injEq] at hrs2
  exact ⟨ik, by rw [hp2, ← hrs2.2]⟩

theorem Exhausted_of_Next [Inhabited T] {it it1 : Iter σ T}
    (hn : it.Next = some ((default, false), it1)) (h : Exhausted it1) : Exhausted it := by
  intro k
  cases k with
  | zero => exact ⟨it, rfl⟩
  | succ k =>
    obtain ⟨ik, hk⟩ := h k
    exact ⟨ik, by rw [pulls_succ_of_Next hn hk, List.replicate_succ]⟩

theorem Exhausted_of_fixed [Inhabited T] {it : Iter σ T}
    (hn : it.Next = some ((default, false), it)) : Exhausted it :=
  fun k => ⟨it, pulls_stable hn k⟩

theorem Exhausted_Map [Inhabited T] [Inhabited R] (f : T → R) :
    ∀ (k : Nat) (it : Iter σ T), Exhausted it →
      ∃ m1, (Map it f).pulls k = some (List.replicate k (default, false), m1)
  | 0, it, _ => ⟨_, rfl⟩
  | k + 1, it, h => by
    obtain ⟨it1, hn, h1⟩ := Exhausted_Next h
    obtain ⟨m1, hm⟩ := Exhausted_Map f k it1 h1
    have hmn : (Map it f).Next = some ((default, false), Map it1 f) := by
      simp [Map_Next, hn]
    exact ⟨m1, by rw [pulls_succ_of_Next hmn hm, List.replicate_succ]⟩

theorem Exhausted_Filter [Inhabited T] (p : T → Bool) (fuel : Nat) :
    ∀ (k : Nat) (it : Iter σ T), Exhausted it →
      ∃ m1, (Filter it p (fuel + 1)).pulls k
        = some (List.replicate k (default, false), m1)
  | 0, it, _ => ⟨_, rfl⟩
  | k + 1, it, h => by
    obtain ⟨it1, hn, h1⟩ := Exhausted_Next h
    obtain ⟨m1, hm⟩ := Exhausted_Filter p fuel k it1 h1
    have hmn : (Filter it p (fuel + 1)).Next
        = some ((default, false), Filter it1 p (fuel + 1)) := by
      simp [Filter_Next, Filter.loop, hn]
    exact ⟨m1, by rw [pulls_succ_of_Next hmn hm, List.replicate_succ]⟩

theorem Exhausted_Take [Inhabited T] (ty : IntType) :
    ∀ (k : Nat) (it : Iter σ T) (n : Int), Exhausted it →
      ∃ m1, (Take ty it n).pulls k = some (List.replicate k (default, false), m1)
  | 0, it, n, _ => ⟨_, rfl⟩
  | k + 1, it, n, h => by
    by_cases hz : n ≤ 0
    · exact ⟨_, pulls_stable (Take_Next_nonpos ty it n hz) (k + 1)⟩
    · obtain ⟨it1, hn, h1⟩ := Exhausted_Next h
      obtain ⟨m1, hm⟩ := Exhausted_Take ty k it1 (ty.wrap (n - 1)) h1
      have hmn : (Take ty it n).Next
          = some ((default, false), Take ty it1 (ty.wrap (n - 1))) := by
        rw [Take_Next_pos ty it n (by omega), hn]
        rfl
      exact ⟨m1, by rw [pulls_succ_of_Next hmn hm, List.replicate_succ]⟩

theorem Map_Next_inv [Inhabited R] {it : Iter σ T} {f : T → R} {r : R × Bool}
    {c1 : Iter (Iter σ T) R} (h : (Map it f).Next = some (r, c1)) :
    ∃ v b i1, it.Next = some ((v, b), i1) ∧ c1 = Map i1 f
      ∧ r = (if b then (f v, true) else (default, false)) := by
  rw [Map_Next] at h
  cases hn : it.Next with
  | none => simp [hn] at h
  | some q =>
    obtain ⟨⟨v, b⟩, i1⟩ := q
    refine ⟨v, b, i1, rfl, ?_⟩
    cases b <;> simp [hn] at h <;> simp [h.1, h.2]

theorem Take_Next_inv [Inhabited T] {ty : IntType} {it : Iter σ T} {n : Int}
    {r : T × Bool} {c1 : Iter (Int × Iter σ T) T}
    (h : (Take ty it n).Next = some (r, c1)) :
    (n ≤ 0 ∧ r = (default, false) ∧ c1 = Take ty it n)
      ∨ (0 < n ∧ ∃ i1, it.Next = some (r, i1) ∧ c1 = Take ty i1 (ty.wrap (n - 1))) := by
  by_cases hz : n ≤ 0
  · rw [Take_Next_nonpos ty it n hz] at h
    simp only [Option.some.injEq, Prod.mk.injEq] at h
    exact Or.inl ⟨hz, h.1.symm, h.2.symm⟩
  · have hpos : 0 < n := by omega
    rw [Take_Next_pos ty it n hpos] at h
    cases hn : it.Next with
    | none => simp [hn] at h
    | some q =>
      simp only [hn, Option.map_some', Option.some.injEq, Prod.mk.injEq] at h
      refine Or.inr ⟨hpos, q.2, ?_, h.2.symm⟩
      rw [← h.1]

theorem Filter_loop_inv (p : T → Bool) :
    ∀ (fuel : Nat) (it i2 : Iter σ T) (r : T × Bool),
      Filter.loop p fuel it = some (r, i2) →
      ∃ i1, Reach it i1 ∧ i1.Next = some (r, i2)
  | 0, it, i2, r, h => by simp [Filter.loop] at h
  | fuel + 1, it, i2, r, h => by
    rw [Filter.loop] at h
    cases hn : it.Next with
    | none => simp [hn] at h
    | some q =>
      obtain ⟨⟨val, more⟩, i1⟩ := q
      simp only [hn] at h
      cases more with
      | false =>
        simp only [Bool.not_false, if_true, Option.some.injEq, Prod.mk.injEq] at h
        refine ⟨it, Reach.refl it, ?_⟩
        rw [hn, ← h.1, ← h.2]
      | true =>
        by_cases hp : p val = true
        · simp only [Bool.not_true, hp, if_true, Bool.false_eq_true, if_false,
            Option.some.injEq, Prod.mk.injEq] at h
          refine ⟨it, Reach.refl it, ?_⟩
          rw [hn, ← h.1, ← h.2]
        · simp only [Bool.not_true, hp, Bool.false_eq_true, if_false] at h
          obtain ⟨i0, hr, hn0⟩ := Filter_loop_inv p fuel i1 i2 r h
          exact ⟨i0, Reach.head hn hr, hn0⟩

theorem Reach_of_Next {it it1 : Iter σ T} {r : T × Bool} (hn : it.Next = some (r, it1)) :
    Reach it it1 := Reach.head hn (Reach.refl it1)

theorem Map_pulls_reach [Inhabited R] (f : T → R) :
    ∀ (j : Nat) (it : Iter σ T) (rs : List (R × Bool)) (m1 : Iter (Iter σ T) R),
      (Map it f).pulls j = some (rs, m1) → ∃ i1, Reach it i1 ∧ m1 = Map i1 f
  | 0, it, rs, m1, h => by
    simp only [Iter.pulls, Option.some.injEq, Prod.mk.injEq] at h
    exact ⟨it, Reach.refl it, h.2.symm⟩
  | j + 1, it, rs, m1, h => by
    obtain ⟨r, c1, rs1, hn, hp, _⟩ := pulls_succ_inv h
    obtain ⟨v, b, i1, hu, rfl, _⟩ := Map_Next_inv hn
    obtain ⟨i2, hr, hm⟩ := Map_pulls_reach f j i1 rs1 m1 hp
    exact ⟨i2, Reach.head hu hr, hm⟩

theorem Filter_pulls_reach (p : T → Bool) (fuel : Nat) :
    ∀ (j : Nat) (it : Iter σ T) (rs : List (T × Bool)) (m1 : Iter (Iter σ T) T),
      (Filter it p fuel).pulls j = some (rs, m1) →
      ∃ i1, Reach it i1 ∧ m1 = Filter i1 p fuel
  | 0, it, rs, m1, h => by
    simp only [Iter.pulls, Option.some.injEq, Prod.mk.injEq] at h
    exact ⟨it, Reach.refl it, h.2.symm⟩
  | j + 1, it, rs, m1, h => by
    obtain ⟨r, c1, rs1, hn, hp, _⟩ := pulls_succ_inv h
    rw [Filter_Next] at hn
    cases hl : Filter.loop p fuel it with
    | none => simp [hl] at hn
    | some q =>
      simp only [hl, Option.map_some', Option.some.injEq, Prod.mk.injEq] at hn
      obtain ⟨i0, hr0, hn0⟩ := Filter_loop_inv p fuel it q.2 q.1 hl
      rw [← hn.2] at hp
      obtain ⟨i2, hr, hm⟩ := Filter_pulls_reach p fuel j q.2 rs1 m1 hp
      exact ⟨i2, (hr0.trans (Reach_of_Next hn0)).trans hr, hm⟩

theorem Take_pulls_reach [Inhabited T] (ty : IntType) :
    ∀ (j : Nat) (it : Iter σ T) (n : Int) (rs : List (T × Bool))
      (m1 : Iter (Int × Iter σ T) T),
      (Take ty it n).pulls j = some (rs, m1) →
      ∃ i1 n1, Reach it i1 ∧ m1 = Take ty i1 n1
  | 0, it, n, rs, m1, h => by
    simp only [Iter.pulls, Option.some.injEq, Prod.mk.injEq] at h
    exact ⟨it, n, Reach.refl it, h.2.symm⟩
  | j + 1, it, n, rs, m1, h => by
    obtain ⟨r, c1, rs1, hn, hp, _⟩ := pulls_succ_inv h
    rcases Take_Next_inv hn with ⟨_, _, rfl⟩ | ⟨_, i1, hu, rfl⟩
    · exact Take_pulls_reach ty j it n rs1 m1 hp
    · obtain ⟨i2, n2, hr, hm⟩ := Take_pulls_reach ty j i1 _ rs1 m1 hp
      exact ⟨i2, n2, Reach.head hu hr, hm⟩

theorem FromSlice_pulls_cursor [Inhabited T] (s : Slice T) :
    ∀ (j k : Nat) (rs : List (T × Bool)) (it1 : Iter Nat T),
      (FromSlice.atCursor s k).pulls j = some (rs, it1) →
      ∃ k1, it1 = FromSlice.atCursor s k1
  | 0, k, rs, it1, h => by
    simp only [Iter.pulls, Option.some.injEq, Prod.mk.injEq] at h
    exact ⟨k, h.2.symm⟩
  | j + 1, k, rs, it1, h => by
    obtain ⟨r, c1, rs1, hn, hp, _⟩ := pulls_succ_inv h
    by_cases hk : k < s.len
    · rw [FromSlice_Next_lt s k hk] at hn
      simp only [Option.some.injEq, Prod.mk.injEq] at hn
      rw [← hn.2] at hp
      exact FromSlice_pulls_cursor s j (k + 1) rs1 it1 hp
    · rw [FromSlice_Next_ge s k (Nat.le_of_not_lt hk)] at hn
      simp only [Option.some.injEq, Prod.mk.injEq] at hn
      rw [← hn.2] at hp
      exact FromSlice_pulls_cursor s j k rs1 it1 hp

theorem FromSlice_stable [Inhabited T] (s : Slice T) :
    ExhaustionStable (FromSlice s) := by
  intro j rs it1 it2 v hp hn
  rw [← FromSlice_atCursor_zero] at hp
  obtain ⟨k, rfl⟩ := FromSlice_pulls_cursor s j 0 rs it1 hp
  by_cases hk : k < s.len
  · rw [FromSlice_Next_lt s k hk] at hn
    simp at hn
  · have hge := FromSlice_Next_ge s k (Nat.le_of_not_lt hk)
    rw [hge] at hn
    simp only [Option.some.injEq, Prod.mk.injEq, and_true] at hn
    rw [← hn.2]
    exact Exhausted_of_fixed hge

theorem CountedFrom_Next (c : Nat) (it : Iter σ T) :
    (CountedFrom c it).Next = it.Next.map (fun r => (r.1, CountedFrom (c + 1) r.2)) := by
  have hc : CountedFrom c it = FromFunc (c, it) (Counted it).f := rfl
  rw [hc, FromFunc_Next]
  cases h : it.Next with
  | none => simp [Counted, FromFunc, h]
  | some q => simp [Counted, FromFunc, h, CountedFrom]

theorem Counted_eq_CountedFrom (it : Iter σ T) : Counted it = CountedFrom 0 it := rfl

theorem Take_pulls_counter [Inhabited T] (ty : IntType) :
    ∀ (k : Nat) (n : Int) (up : Iter σ T) (rs : List (T × Bool))
      (tk : Iter (Int × Iter σ T) T),
      ty.inRange n → (Take ty up n).pulls k = some (rs, tk) →
      ∃ up1, tk = Take ty up1 (n - ((min k n.toNat : Nat) : Int))
  | 0, n, up, rs, tk, _, h => by
    simp only [Iter.pulls, Option.some.injEq, Prod.mk.injEq] at h
    refine ⟨up, ?_⟩
    rw [← h.2]
    simp
  | k + 1, n, up, rs, tk, hr, h => by
    obtain ⟨r, c1, rs1, hn, hp, _⟩ := pulls_succ_inv h
    rcases Take_Next_inv hn with ⟨hz, _, rfl⟩ | ⟨hpos, i1, _, rfl⟩
    · obtain ⟨up1, ht⟩ := Take_pulls_counter ty k n up rs1 tk hr hp
      refine ⟨up1, ?_⟩
      rw [ht]
      have h0 : n.toNat = 0 := Int.toNat_eq_zero.mpr hz
      simp [h0]
    · obtain ⟨hw, hr1⟩ := ty.wrap_pred n hr hpos
      rw [hw] at hp
      obtain ⟨up1, ht⟩ := Take_pulls_counter ty k (n - 1) i1 rs1 tk hr1 hp
      refine ⟨up1, ?_⟩
      rw [ht]
      congr 1
      omega

theorem Take_counted_pulls [Inhabited T] (ty : IntType) :
    ∀ (k : Nat) (n : Int) (c : Nat) (it : Iter σ T) (rs : List (T × Bool))
      (tk : Iter (Int × Iter (Nat × Iter σ T) T) T),
      ty.inRange n → (Take ty (CountedFrom c it) n).pulls k = some (rs, tk) →
      ∃ it1, tk = Take ty (CountedFrom (c + min k n.toNat) it1)
        (n - ((min k n.toNat : Nat) : Int))
  | 0, n, c, it, rs, tk, _, h => by
    simp only [Iter.pulls, Option.some.injEq, Prod.mk.injEq] at h
    refine ⟨it, ?_⟩
    rw [← h.2]
    simp
  | k + 1, n, c, it, rs, tk, hr, h => by
    obtain ⟨r, c1, rs1, hn, hp, _⟩ := pulls_succ_inv h
    rcases Take_Next_inv hn with ⟨hz, _, rfl⟩ | ⟨hpos, i1, hu, rfl⟩
    · obtain ⟨it1, ht⟩ := Take_counted_pulls ty k n c it rs1 tk hr hp
      refine ⟨it1, ?_⟩
      rw [ht]
      have h0 : n.toNat = 0 := Int.toNat_eq_zero.mpr hz
      simp [h0]
    · obtain ⟨hw, hr1⟩ := ty.wrap_pred n hr hpos
      rw [CountedFrom_Next] at hu
      cases hi : it.Next with
      | none => simp [hi] at hu
      | some q =>
        simp only [hi, Option.map_some', Option.some.injEq, Prod.mk.injEq] at hu
        rw [hw, ← hu.2] at hp
        obtain ⟨it1, ht⟩ := Take_counted_pulls ty k (n - 1) (c + 1) q.2 rs1 tk hr1 hp
        refine ⟨it1, ?_⟩
        rw [ht]
        have e1 : c + 1 + min k (n - 1).toNat = c + min (k + 1) n.toNat := by omega
        have e2 : n - 1 - ((min k (n - 1).toNat : Nat) : Int)
            = n - ((min (k + 1) n.toNat : Nat) : Int) := by omega
        rw [e1, e2]

theorem Filter_loopLog_erase (p : T → Bool) :
    ∀ (fuel : Nat) (it : Iter σ T) (log : List T),
      (Filter.loopLog p fuel it log).map Prod.fst = Filter.loop p fuel it
  | 0, it, log => rfl
  | fuel + 1, it, log => by
    rw [Filter.loopLog, Filter.loop]
    cases hn : it.Next with
    | none => rfl
    | some q =>
      obtain ⟨⟨val, more⟩, i1⟩ := q
      cases more with
      | false => rfl
      | true =>
        by_cases hp : p val = true
        · simp [hp]
        · simp only [Bool.not_true, Bool.false_eq_true, if_false, hp]
          exact Filter_loopLog_erase p fuel i1 _

theorem Filter_loopLog_found [Inhabited T] (s : Slice T) (p : T → Bool) (i : Nat)
    (hi : i < s.len) (hp : p (s.toList.get ⟨i, hi⟩) = true) :
    ∀ (d c : Nat), c + d = i →
      (∀ (j : Nat) (hj : j < s.len), c ≤ j → j < i →
        p (s.toList.get ⟨j, hj⟩) = false) →
      ∀ (fuel : Nat) (log : List T), d < fuel →
        Filter.loopLog p fuel (FromSlice.atCursor s c) log
          = some (((s.toList.get ⟨i, hi⟩, true), FromSlice.atCursor s (i + 1)),
              log ++ (s.toList.drop c).take (d + 1))
  | 0, c, hcd, _, fuel, log, hf => by
    cases fuel with
    | zero => omega
    | succ fuel =>
      have hci : c = i := by omega
      subst hci
      have hd : s.toList.drop c = s.toList.get ⟨c, hi⟩ :: s.toList.drop (c + 1) :=
        List.drop_eq_getElem_cons hi
      rw [Filter.loopLog, FromSlice_Next_lt s c hi, hd, List.take_succ_cons,
        List.take_zero]
      simp only [Bool.not_true, Bool.false_eq_true, if_false, hp, if_true]
  | d + 1, c, hcd, hmin, fuel, log, hf => by
    cases fuel with
    | zero => omega
    | succ fuel =>
      have hc : c < s.len := by omega
      have hd : s.toList.drop c = s.toList.get ⟨c, hc⟩ :: s.toList.drop (c + 1) :=
        List.drop_eq_getElem_cons hc
      have hpc : p (s.toList.get ⟨c, hc⟩) = false := hmin c hc (le_refl c) (by omega)
      have ih := Filter_loopLog_found s p i hi hp d (c + 1) (by omega)
        (fun j hj h1 h2 => hmin j hj (by omega) h2) fuel
        (log ++ [s.toList.get ⟨c, hc⟩]) (by omega)
      rw [Filter.loopLog, FromSlice_Next_lt s c hc]
      simp only [Bool.not_true, Bool.false_eq_true, if_false, hpc]
      rw [ih, hd, List.take_succ_cons]
      simp only [List.append_assoc, List.singleton_append]

theorem Filter_loopLog_none [Inhabited T] (s : Slice T) (p : T → Bool) :
    ∀ (d c : Nat), c + d = s.len →
      (∀ (j : Nat) (hj : j < s.len), c ≤ j → p (s.toList.get ⟨j, hj⟩) = false) →
      ∀ (fuel : Nat) (log : List T), d < fuel →
        Filter.loopLog p fuel (FromSlice.atCursor s c) log
          = some (((default, false), FromSlice.atCursor s s.len),
              log ++ s.toList.drop c)
  | 0, c, hc, _, fuel, log, hf => by
    cases fuel with
    | zero => omega
    | succ fuel =>
      have hcl : c = s.len := by omega
      have hd : s.toList.drop c = [] := List.drop_of_length_le (by rw [hcl]; exact le_refl _)
      rw [Filter.loopLog, FromSlice_Next_ge s c (by omega), hd, hcl, List.append_nil]
      simp only [Bool.not_false, if_true]
  | d + 1, c, hc, hall, fuel, log, hf => by
    cases fuel with
    | zero => omega
    | succ fuel =>
      have hlt : c < s.len := by omega
      have hd : s.toList.drop c = s.toList.get ⟨c, hlt⟩ :: s.toList.drop (c + 1) :=
        List.drop_eq_getElem_cons hlt
      have hpc : p (s.toList.get ⟨c, hlt⟩) = false := hall c hlt (le_refl c)
      have ih := Filter_loopLog_none s p d (c + 1) (by omega)
        (fun j hj h1 => hall j hj (by omega)) fuel
        (log ++ [s.toList.get ⟨c, hlt⟩]) (by omega)
      rw [Filter.loopLog, FromSlice_Next_lt s c hlt]
      simp only [Bool.not_true, Bool.false_eq_true, if_false, hpc]
      rw [ih, hd]
      simp only [List.append_assoc, List.singleton_append]

theorem Filter_Next_of_loopLog (p : T → Bool) (fuel : Nat) (it : Iter σ T)
    {r : (T × Bool) × Iter σ T} {log : List T}
    (h : Filter.loopLog p fuel it [] = some (r, log)) :
    (Filter it p fuel).Next = some (r.1, Filter r.2 p fuel) := by
  have he := Filter_loopLog_erase p fuel it []
  rw [h] at he
  rw [Filter_Next, ← he]
  rfl

theorem Map_Next_bodyCalls [Inhabited R] (it : Iter σ T) (f : T → R) :
    (Map it f).Next = (Map.bodyCalls f it).map (fun r => (r.1.1, Map r.1.2 f)) := by
  rw [Map_Next, Map.bodyCalls]
  cases hn : it.Next with
  | none => rfl
  | some q =>
    obtain ⟨⟨val, more⟩, i1⟩ := q
    cases more <;> rfl

theorem FromSlice_pulls_min [Inhabited T] (s : Slice T) (k : Nat) :
    ∃ rs, (FromSlice s).pulls k = some (rs, FromSlice.atCursor s (min k s.len)) := by
  by_cases hk : k ≤ s.len
  · have h := FromSlice_pulls_le s k 0 (by omega)
    rw [FromSlice_atCursor_zero, Nat.zero_add] at h
    exact ⟨_, by rw [h, Nat.min_eq_left hk]⟩
  · have h := FromSlice_pulls_le s s.len 0 (by omega)
    rw [FromSlice_atCursor_zero, Nat.zero_add] at h
    have h2 := pulls_stable (FromSlice_Next_ge s s.len (le_refl _)) (k - s.len)
    have h3 := pulls_append s.len (k - s.len) _ _ _ _ _ h h2
    have e : s.len + (k - s.len) = k := by omega
    rw [e] at h3
    exact ⟨_, by rw [h3, Nat.min_eq_right (by omega)]⟩

theorem Produces_to_pulls {it it1 : Iter σ T} {xs : List T} {z : T}
    (h : Produces it xs z it1) :
    ∃ it0, it.pulls xs.length = some (xs.map (fun x => (x, true)), it0)
      ∧ it0.Next = some ((z, false), it1) := by
  induction h with
  | @done it0 _ _ hn => exact ⟨it0, rfl, hn⟩
  | step hn _ ih =>
    obtain ⟨it0, hp, h0⟩ := ih
    exact ⟨it0, pulls_succ_of_Next hn hp, h0⟩

theorem pulls_to_Produces {z : T} {it1 : Iter σ T} :
    ∀ (xs : List T) (it it0 : Iter σ T),
      it.pulls xs.length = some (xs.map (fun x => (x, true)), it0) →
      it0.Next = some ((z, false), it1) → Produces it xs z it1
  | [], it, it0, hp, hn => by
    simp only [List.length_nil, Iter.pulls, Option.some.injEq, Prod.mk.injEq] at hp
    rw [← hp.2] at hn
    exact Produces.done hn
  | x :: xs, it, it0, hp, hn => by
    obtain ⟨r, i1, rs1, h1, hp1, hrs⟩ := pulls_succ_inv hp
    simp only [List.map_cons, List.cons.injEq] at hrs
    rw [← hrs.1] at h1
    rw [← hrs.2] at hp1
    exact Produces.step h1 (pulls_to_Produces xs i1 it0 hp1 hn)

theorem YieldsExactly_of_Produces [Inhabited T] {it it1 : Iter σ T} {xs : List T}
    (h : Produces it xs default it1) (he : Exhausted it1) : YieldsExactly it xs := by
  obtain ⟨it0, hp, hn⟩ := Produces_to_pulls h
  exact ⟨it0, hp, Exhausted_of_Next hn he⟩

theorem Produces_of_YieldsExactly [Inhabited T] {it : Iter σ T} {xs : List T}
    (h : YieldsExactly it xs) : ∃ it1, Produces it xs default it1 ∧ Exhausted it1 := by
  obtain ⟨it0, hp, he⟩ := h
  obtain ⟨it1, hn, he1⟩ := Exhausted_Next he
  exact ⟨it1, pulls_to_Produces xs it it0 hp hn, he1⟩

theorem Take_produces_exhausted [Inhabited T] (ty : IntType) {it it1 : Iter σ T}
    {xs : List T} {z : T} (h : Produces it xs z it1) (hz : z = default)
    (he : Exhausted it1) :
    ∀ n : Int, ty.inRange n →
      ∃ tk, Produces (Take ty it n) (xs.take n.toNat) default tk ∧ Exhausted tk := by
  induction h with
  | @done it0 it1 z hn =>
    intro n _
    rw [List.take_nil]
    by_cases h0 : n ≤ 0
    · have hx := Take_Next_nonpos ty it0 n h0
      exact ⟨_, Produces.done hx, Exhausted_of_fixed hx⟩
    · refine ⟨Take ty it1 (ty.wrap (n - 1)), Produces.done ?_,
        fun k => Exhausted_Take ty k it1 _ he⟩
      rw [Take_Next_pos ty it0 n (by omega), hn, hz]
      rfl
  | @step it0 it1 _ x _ xs hn _ ih =>
    intro n hr
    by_cases h0 : n ≤ 0
    · have h00 : n.toNat = 0 := Int.toNat_eq_zero.mpr h0
      rw [h00, List.take_zero]
      have hx := Take_Next_nonpos ty it0 n h0
      exact ⟨_, Produces.done hx, Exhausted_of_fixed hx⟩
    · have hpos : 0 < n := by omega
      obtain ⟨hw, hr1⟩ := ty.wrap_pred n hr hpos
      obtain ⟨tk, hp, hex⟩ := ih hz he (n - 1) hr1
      have ht : n.toNat = (n - 1).toNat + 1 := by omega
      rw [ht, List.take_succ_cons]
      refine ⟨tk, Produces.step ?_ hp, hex⟩
      rw [Take_Next_pos ty it0 n hpos, hn, hw]
      rfl

theorem Exhausted_Filter_pos [Inhabited T] (p : T → Bool) {fuel : Nat} (hf : 0 < fuel)
    {it : Iter σ T} (he : Exhausted it) : Exhausted (Filter it p fuel) := by
  cases fuel with
  | zero => omega
  | succ fuel => exact fun k => Exhausted_Filter p fuel k it he

/-! ## Claims -/

/-- C1 (round trip): for every slice `s`, nil or not, `ToSlice(FromSlice(s))`
returns, once the loop budget exceeds `len(s)`, the non-nil slice holding the
elements of `s` in order (the empty non-nil slice for the nil slice), and
leaves the cursor at `len(s)`. -/
theorem C1_roundtrip [Inhabited T] (s : Slice T) (fuel : Nat) (hf : s.len < fuel) :
    ToSlice (FromSlice s) fuel
      = some (Slice.mk s.toList, FromSlice.atCursor s s.len) := by
  have h := FromSlice_produces s s.len 0 (by omega)
  rw [List.drop_zero, FromSlice_atCursor_zero] at h
  exact ToSlice_produces h fuel hf

/-- Witness of C1 on the slices `[3, 4, 5]` and nil. -/
theorem C1_roundtrip_witness :
    (ToSlice (FromSlice (Slice.mk [3, 4, 5])) 4).map Prod.fst
        = some (Slice.mk [3, 4, 5])
      ∧ (ToSlice (FromSlice (Slice.nil : Slice Nat)) 1).map Prod.fst
        = some (Slice.mk []) :=
  ⟨by rw [C1_roundtrip (Slice.mk [3, 4, 5]) 4 (by decide)]; rfl,
   by rw [C1_roundtrip (Slice.nil : Slice Nat) 1 (by decide)]; rfl⟩

/-- C2 (filter correctness): for every slice `s` and predicate `p`,
`ToSlice(Filter(FromSlice(s), p))` returns, once both loop budgets exceed
`len(s)`, the elements of `s` that satisfy `p`, in their original order. -/
theorem C2_filter_correct [Inhabited T] (s : Slice T) (p : T → Bool) (fi fo : Nat)
    (hfi : s.len < fi) (hfo : s.len < fo) :
    ToSlice (Filter (FromSlice s) p fi) fo
      = some (Slice.mk (s.toList.filter p),
          Filter (FromSlice.atCursor s s.len) p fi) := by
  have h := Filter_produces p (FromSlice_produces_all s) fi hfi
  refine ToSlice_produces h fo ?_
  exact lt_of_le_of_lt (List.length_filter_le _ _) hfo

/-- Witness of C2: the even elements of `[3, 4, 5, 6]`. -/
theorem C2_filter_correct_witness :
    (ToSlice (Filter (FromSlice (Slice.mk [3, 4, 5, 6])) (fun x => x % 2 == 0) 5) 5).map
        Prod.fst = some (Slice.mk [4, 6]) := by
  rw [C2_filter_correct (Slice.mk [3, 4, 5, 6]) (fun x => x % 2 == 0) 5 5
    (by decide) (by decide)]
  rfl

/-- C3 (map correctness): for every slice `s` and function `f`,
`ToSlice(Map(FromSlice(s), f))` returns, once the loop budget exceeds
`len(s)`, the slice of `f` applied to each element of `s` in order, which has
the length of `s`. -/
theorem C3_map_correct [Inhabited T] [Inhabited R] (s : Slice T) (f : T → R)
    (fuel : Nat) (hf : s.len < fuel) :
    ToSlice (Map (FromSlice s) f) fuel
        = some (Slice.mk (s.toList.map f), Map (FromSlice.atCursor s s.len) f)
      ∧ (Slice.mk (s.toList.map f)).len = s.len := by
  refine ⟨?_, by simp [Slice.len, Slice.toList]⟩
  refine ToSlice_produces (Map_produces f (FromSlice_produces_all s)) fuel ?_
  simpa [Slice.len] using hf

/-- Witness of C3: doubling `[3, 4, 5]` gives `[6, 8, 10]`, and the empty
slice gives the empty slice. -/
theorem C3_map_correct_witness :
    (ToSlice (Map (FromSlice (Slice.mk [3, 4, 5])) (fun x => x * 2)) 4).map Prod.fst
        = some (Slice.mk [6, 8, 10])
      ∧ (ToSlice (Map (FromSlice (Slice.mk ([] : List Nat))) (fun x => x * 2)) 1).map
          Prod.fst = some (Slice.mk []) :=
  ⟨by rw [(C3_map_correct (Slice.mk [3, 4, 5]) (fun x => x * 2) 4 (by decide)).1]; rfl,
   by rw [(C3_map_correct (Slice.mk ([] : List Nat)) (fun x => x * 2) 1 (by decide)).1]; rfl⟩

/-- C4 (take cardinality): for every slice `s` and every integer `n` of the
counter type, `ToSlice(Take(FromSlice(s), n))` returns, once the loop budget
exceeds `len(s)`, the prefix of `s` of length `min(n, len(s))` when `n >= 0`
(all of `s` when `n >= len(s)`) and the empty slice when `n <= 0`. -/
theorem C4_take_cardinality [Inhabited T] (ty : IntType) (s : Slice T) (n : Int)
    (fuel : Nat) (hr : ty.inRange n) (hf : s.len < fuel) :
    (ToSlice (Take ty (FromSlice s) n) fuel).map Prod.fst
        = some (Slice.mk (s.toList.take n.toNat))
      ∧ (0 ≤ n → (s.toList.take n.toNat).length = min n.toNat s.len)
      ∧ ((s.len : Int) ≤ n → s.toList.take n.toNat = s.toList)
      ∧ (n ≤ 0 → s.toList.take n.toNat = []) := by
  obtain ⟨z1, tk, hp⟩ := Take_produces_prefix ty (FromSlice_produces_all s) n hr
  refine ⟨?_, ?_, ?_, ?_⟩
  · rw [ToSlice_produces hp fuel
      (lt_of_le_of_lt (by simp [Slice.len]) hf)]
    rfl
  · intro _
    simp [Slice.len]
  · intro h
    exact List.take_of_length_le (by unfold Slice.len at h; omega)
  · intro h
    rw [Int.toNat_eq_zero.mpr h, List.take_zero]

/-- Witness of C4: the cases of `TestTake` for `n = 2` and `n = -1`, with a
signed 64-bit counter. -/
theorem C4_take_cardinality_witness :
    (ToSlice (Take ⟨true, 64⟩ (FromSlice (Slice.mk [3, 4, 5])) 2) 4).map Prod.fst
        = some (Slice.mk [3, 4])
      ∧ (ToSlice (Take ⟨true, 64⟩ (FromSlice (Slice.mk [3, 4, 5])) (-1)) 4).map Prod.fst
        = some (Slice.mk []) :=
  ⟨(C4_take_cardinality ⟨true, 64⟩ (Slice.mk [3, 4, 5]) 2 4 (by decide) (by decide)).1,
   (C4_take_cardinality ⟨true, 64⟩ (Slice.mk [3, 4, 5]) (-1) 4 (by decide) (by decide)).1⟩

/-- C5 (take never over-pulls): let the upstream of `Take(it, n)`, `n >= 0`,
be any iterator wrapped in a pull counter.  Once some run of calls of `Next`
on the Take iterator has yielded `n` elements, every further call returns
`(zero value, false)` and leaves the Take iterator, hence the pull counter and
the upstream, exactly as they were: no call is made to `it.Next()`. -/
theorem C5_take_never_overpulls [Inhabited T] (ty : IntType) (it : Iter σ T) (n : Int)
    (j : Nat) (rs : List (T × Bool)) (tk : Iter (Int × Iter (Nat × Iter σ T) T) T)
    (hr : ty.inRange n) (h0 : 0 ≤ n)
    (hrun : (Take ty (Counted it) n).pulls j = some (rs, tk))
    (hy : (yields rs : Int) = n) :
    ∀ k : Nat, ∃ tk1, tk.pulls k = some (List.replicate k (default, false), tk1)
      ∧ tk1 = tk ∧ pullCount tk1.env.2 = pullCount tk.env.2 := by
  obtain ⟨up1, n1, ht, hn1, hb⟩ := Take_pulls_bound ty j n (Counted it) rs tk hr h0 hrun
  have hz : n1 ≤ 0 := by omega
  intro k
  refine ⟨tk, ?_, rfl, rfl⟩
  have hnx : tk.Next = some ((default, false), tk) := by
    rw [ht]
    exact Take_Next_nonpos ty up1 n1 hz
  exact pulls_stable hnx k

/-- Witness of C5: `Take(naturals, 2)` yields `0, 1` in two calls, after which
three more calls return `(0, false)` with the pull count still at `2`. -/
theorem C5_take_never_overpulls_witness :
    ∃ tk, (Take ⟨true, 64⟩ (Counted naturals) 2).pulls 2
        = some ([(0, true), (1, true)], tk)
      ∧ pullCount tk.env.2 = 2
      ∧ ∃ tk1, tk.pulls 3 = some (List.replicate 3 (default, false), tk1)
        ∧ tk1 = tk ∧ pullCount tk1.env.2 = pullCount tk.env.2 :=
  ⟨_, rfl, rfl,
    C5_take_never_overpulls ⟨true, 64⟩ naturals 2 2 [(0, true), (1, true)] _
      (by decide) (by decide) rfl rfl 3⟩

/-- C6 (non-positive take): for every upstream iterator wrapped in a pull
counter and every `n <= 0`, any number `k` of calls of `Next` on `Take(it, n)`
all return `(zero value, false)` and leave the Take iterator unchanged: the
pull counter stays at `0`, the upstream is never called. -/
theorem C6_take_nonpositive [Inhabited T] (ty : IntType) (it : Iter σ T) (n : Int)
    (hn : n ≤ 0) (k : Nat) :
    ∃ tk, (Take ty (Counted it) n).pulls k
        = some (List.replicate k (default, false), tk)
      ∧ tk = Take ty (Counted it) n ∧ pullCount tk.env.2 = 0 := by
  refine ⟨Take ty (Counted it) n, ?_, rfl, rfl⟩
  exact pulls_stable (Take_Next_nonpos ty (Counted it) n hn) k

/-- Witness of C6: four pulls of `Take([3, 4, 5], -1)`. -/
theorem C6_take_nonpositive_witness :
    ∃ tk, (Take ⟨true, 64⟩ (Counted (FromSlice (Slice.mk [3, 4, 5]))) (-1)).pulls 4
        = some (List.replicate 4 (default, false), tk)
      ∧ tk = Take ⟨true, 64⟩ (Counted (FromSlice (Slice.mk [3, 4, 5]))) (-1)
      ∧ pullCount tk.env.2 = 0 :=
  C6_take_nonpositive ⟨true, 64⟩ (FromSlice (Slice.mk [3, 4, 5])) (-1) (by decide) 4

/-- C7 (take bounds an infinite source): for every upstream iterator that
never signals exhaustion and every `n >= 0` of the counter type,
`ToSlice(Take(it, n))` returns once the loop budget exceeds `n`, and its
result is the first `n` elements that `it` produces, in order; the upstream is
left as `n` pulls leave it. -/
theorem C7_take_bounds_infinite [Inhabited T] (ty : IntType) (it : Iter σ T) (n : Int)
    (fuel : Nat) (hinf : NeverExhausted it) (hr : ty.inRange n) (h0 : 0 ≤ n)
    (hf : n.toNat < fuel) :
    ∃ rs it1, it.pulls n.toNat = some (rs, it1) ∧ rs.length = n.toNat
      ∧ ToSlice (Take ty it n) fuel
          = some (Slice.mk (rs.map Prod.fst), Take ty it1 0) := by
  obtain ⟨rs, it1, hp, ht⟩ := hinf n.toNat
  have hlen := pulls_length n.toNat it it1 rs hp
  have hn : ((n.toNat : Nat) : Int) = n := Int.toNat_of_nonneg h0
  have hprod := Take_produces_pulls ty n.toNat it it1 rs hp ht (by rw [hn]; exact hr)
  rw [hn] at hprod
  refine ⟨rs, it1, hp, hlen, ToSlice_produces hprod fuel ?_⟩
  rw [List.length_map, hlen]
  exact hf

/-- Witness of C7: the first three natural numbers. -/
theorem C7_take_bounds_infinite_witness :
    ∃ rs it1, naturals.pulls (3 : Int).toNat = some (rs, it1)
      ∧ rs.length = (3 : Int).toNat
      ∧ ToSlice (Take ⟨false, 8⟩ naturals 3) 4
          = some (Slice.mk (rs.map Prod.fst), Take ⟨false, 8⟩ it1 0) :=
  C7_take_bounds_infinite ⟨false, 8⟩ naturals 3 4
    (NeverExhausted_of_code naturals (fun e => ⟨e, e + 1, rfl⟩))
    (by decide) (by decide) (by decide)

/-- C8 (reduce is a left-to-right fold, element first): for every slice
`s = [x1, ..., xk]`, seed `a` and function `f`, `Reduce(FromSlice(s), a, f)`
returns, once the loop budget exceeds `len(s)`, the value
`f(xk, ... f(x2, f(x1, a)) ...)` after `len(s)` invocations of `f`; for an
empty slice it returns `a` after no invocation of `f`. -/
theorem C8_reduce_fold [Inhabited T] (s : Slice T) (a : R) (f : T → R → R)
    (fuel : Nat) (hf : s.len < fuel) :
    Reduce (FromSlice s) a f fuel
        = some (s.toList.foldl (fun acc x => f x acc) a, s.len,
            FromSlice.atCursor s s.len)
      ∧ (s.len = 0 → Reduce (FromSlice s) a f fuel = some (a, 0, FromSlice s)) := by
  have h := Reduce_loop_produces f (FromSlice_produces_all s) fuel a 0 hf
  have h1 : Reduce (FromSlice s) a f fuel
      = some (s.toList.foldl (fun acc x => f x acc) a, s.len,
          FromSlice.atCursor s s.len) := by
    simpa [Reduce, Slice.len] using h
  refine ⟨h1, ?_⟩
  intro hz
  have hnil : s.toList = [] := List.length_eq_zero.mp hz
  rw [h1, hnil, hz]
  rfl

/-- Witness of C8: `Reduce(FromSlice([3, 4, 5]), 0, (x, acc) -> acc + x) == 12`,
after three invocations of `f`. -/
theorem C8_reduce_fold_witness :
    (Reduce (FromSlice (Slice.mk [3, 4, 5])) 0 (fun x acc => acc + x) 4).map
        (fun r => (r.1, r.2.1)) = some (12, 3) := by
  rw [(C8_reduce_fold (Slice.mk [3, 4, 5]) 0 (fun x acc => acc + x) 4 (by decide)).1]
  rfl

/-- C9 (exhaustion stability of the slice source): for every slice `s`,
whenever `Next` on the iterator of `FromSlice(s)`, at any cursor, returns
`(v, false)`, then `v` is the zero value and every later call returns
`(zero value, false)` too; and the first `j <= len(s)` calls on `FromSlice(s)`
all return an element with `true`, namely `s[0], ..., s[j-1]`. -/
theorem C9_fromSlice_exhaustion_stable [Inhabited T] (s : Slice T) :
    (∀ (k : Nat) (v : T) (it1 : Iter Nat T),
        (FromSlice.atCursor s k).Next = some ((v, false), it1) →
        v = default ∧
          ∀ j : Nat, it1.pulls j = some (List.replicate j (default, false), it1))
      ∧ (∀ j : Nat, j ≤ s.len →
          (FromSlice s).pulls j
            = some ((s.toList.take j).map (fun x => (x, true)),
                FromSlice.atCursor s j)) := by
  constructor
  · intro k v it1 h
    by_cases hk : k < s.len
    · rw [FromSlice_Next_lt s k hk] at h
      simp at h
    · have hge : s.len ≤ k := Nat.le_of_not_lt hk
      have hnx := FromSlice_Next_ge s k hge
      rw [hnx] at h
      simp only [Option.some.injEq, Prod.mk.injEq, and_true] at h
      obtain ⟨hv, hi⟩ := h
      refine ⟨hv.symm, ?_⟩
      rw [← hi]
      exact pulls_stable hnx
  · intro j hj
    have h := FromSlice_pulls_le s j 0 (by omega)
    rw [FromSlice_atCursor_zero, List.drop_zero, Nat.zero_add] at h
    exact h

/-- Witness of C9 on `[3, 4, 5]`: the first three calls yield `3, 4, 5`, and
from the cursor at `3` on every call returns `(0, false)`. -/
theorem C9_fromSlice_exhaustion_stable_witness :
    (FromSlice (Slice.mk [3, 4, 5])).pulls 3
        = some ([(3, true), (4, true), (5, true)], FromSlice.atCursor (Slice.mk [3, 4, 5]) 3)
      ∧ (FromSlice.atCursor (Slice.mk [3, 4, 5]) 3).pulls 2
        = some ([(0, false), (0, false)], FromSlice.atCursor (Slice.mk [3, 4, 5]) 3) :=
  ⟨(C9_fromSlice_exhaustion_stable (Slice.mk [3, 4, 5])).2 3 (by decide),
   ((C9_fromSlice_exhaustion_stable (Slice.mk [3, 4, 5])).1 3 0
      (FromSlice.atCursor (Slice.mk [3, 4, 5]) 3) (by rfl)).2 2⟩

/-- C10 (consuming an exhausted iterator is a no-op): for every slice `s`,
`ToSlice` and `Reduce` on `FromSlice(s)` run to completion once the loop
budget exceeds `len(s)`; on the iterator either of them leaves behind, a
second `ToSlice` returns the empty slice and a second `Reduce` with seed `a`
returns `a` after no invocation of `f`, both leaving the iterator as it was. -/
theorem C10_exhausted_noop [Inhabited T] (s : Slice T) (a0 a : R) (f0 f : T → R → R)
    (fuel fuel2 : Nat) (hf : s.len < fuel) (hf2 : 0 < fuel2) :
    (∃ r it1, ToSlice (FromSlice s) fuel = some (r, it1)
        ∧ ToSlice it1 fuel2 = some (Slice.mk [], it1)
        ∧ Reduce it1 a f fuel2 = some (a, 0, it1))
      ∧ (∃ r c it1, Reduce (FromSlice s) a0 f0 fuel = some (r, c, it1)
        ∧ ToSlice it1 fuel2 = some (Slice.mk [], it1)
        ∧ Reduce it1 a f fuel2 = some (a, 0, it1)) := by
  have hall := FromSlice_produces_all s
  have hex := FromSlice_exhausted_produces s
  have h2 : ToSlice (FromSlice.atCursor s s.len) fuel2
      = some (Slice.mk [], FromSlice.atCursor s s.len) :=
    ToSlice_produces hex fuel2 (by simpa using hf2)
  have h3 : Reduce (FromSlice.atCursor s s.len) a f fuel2
      = some (a, 0, FromSlice.atCursor s s.len) := by
    have := Reduce_loop_produces f hex fuel2 a 0 (by simpa using hf2)
    simpa [Reduce] using this
  refine ⟨⟨_, _, ToSlice_produces hall fuel hf, h2, h3⟩, ?_⟩
  have h1 := Reduce_loop_produces f0 hall fuel a0 0 hf
  exact ⟨_, _, _, h1, h2, h3⟩

/-- Witness of C10 on `[3, 4, 5]`, summing the elements. -/
theorem C10_exhausted_noop_witness :
    (∃ r it1, ToSlice (FromSlice (Slice.mk [3, 4, 5])) 4 = some (r, it1)
        ∧ ToSlice it1 1 = some (Slice.mk [], it1)
        ∧ Reduce it1 7 (fun x acc => acc + x) 1 = some (7, 0, it1))
      ∧ (∃ r c it1,
          Reduce (FromSlice (Slice.mk [3, 4, 5])) 0 (fun x acc => acc + x) 4
            = some (r, c, it1)
        ∧ ToSlice it1 1 = some (Slice.mk [], it1)
        ∧ Reduce it1 7 (fun x acc => acc + x) 1 = some (7, 0, it1)) :=
  C10_exhausted_noop (Slice.mk [3, 4, 5]) 0 7 (fun x acc => acc + x)
    (fun x acc => acc + x) 4 1 (by decide) (by decide)

/-- C11 (channel source): when the values `xs` are sent in order on a channel
that is then closed, `ToSlice(FromChannel(ch))` returns, once the loop budget
exceeds the number of values, exactly `xs` in order; each call of `Next` is
one receive on the channel; and `Next` signals exhaustion only when the
channel is closed and drained. -/
theorem C11_channel_source [Inhabited T] (xs : List T) (fuel : Nat)
    (hf : xs.length < fuel) :
    ToSlice (FromChannel ⟨xs, true⟩) fuel
        = some (Slice.mk xs, FromChannel ⟨[], true⟩)
      ∧ (∀ ch : Chan T,
          (FromChannel ch).Next = ch.recv.map (fun r => (r.1, FromChannel r.2)))
      ∧ (∀ (ch : Chan T) (v : T) (it1 : Iter (Chan T) T),
          (FromChannel ch).Next = some ((v, false), it1) →
          ch.pending = [] ∧ ch.closes = true ∧ v = default) := by
  refine ⟨ToSlice_produces (FromChannel_produces xs) fuel hf, FromChannel_Next, ?_⟩
  intro ch v it1 h
  rw [FromChannel_Next] at h
  obtain ⟨pending, closes⟩ := ch
  cases pending with
  | nil =>
    cases closes with
    | false => simp [Chan.recv] at h
    | true =>
      simp only [Chan.recv, if_true, Option.map_some', Option.some.injEq,
        Prod.mk.injEq] at h
      exact ⟨rfl, rfl, h.1.1.symm⟩
  | cons x rest => simp [Chan.recv] at h

/-- Witness of C11: the values `3, 4, 5` are sent and the channel is closed. -/
theorem C11_channel_source_witness :
    (ToSlice (FromChannel (⟨[3, 4, 5], true⟩ : Chan Nat)) 4).map Prod.fst
      = some (Slice.mk [3, 4, 5]) := by
  rw [(C11_channel_source [3, 4, 5] 4 (by decide)).1]
  rfl

/-- C12 (combinators preserve exhaustion stability): for every upstream
iterator `it` that is exhaustion-stable, each of `Filter(it, p)`, `Map(it, f)`
and `Take(it, n)` is exhaustion-stable: once its `Next` has returned
`(_, false)`, every later call returns, with `(zero value, false)`. -/
theorem C12_combinators_preserve_stability [Inhabited T] [Inhabited R] (ty : IntType)
    (it : Iter σ T) (p : T → Bool) (f : T → R) (n : Int) (fuel : Nat)
    (hs : ExhaustionStable it) :
    ExhaustionStable (Filter it p fuel) ∧ ExhaustionStable (Map it f)
      ∧ ExhaustionStable (Take ty it n) := by
  refine ⟨?_, ?_, ?_⟩
  · intro j rs m1 m2 v hp hn
    obtain ⟨i1, hr, rfl⟩ := Filter_pulls_reach p fuel j it rs m1 hp
    rw [Filter_Next] at hn
    cases hl : Filter.loop p fuel i1 with
    | none => simp [hl] at hn
    | some q =>
      simp only [hl, Option.map_some', Option.some.injEq, Prod.mk.injEq] at hn
      obtain ⟨i0, hr0, hn0⟩ := Filter_loop_inv p fuel i1 q.2 q.1 hl
      obtain ⟨j0, rs0, hp0⟩ := hr.trans hr0
      have hq : q.1 = (v, false) := hn.1
      rw [hq] at hn0
      have hex := hs j0 rs0 i0 q.2 v hp0 hn0
      cases fuel with
      | zero => simp [Filter.loop] at hl
      | succ fuel =>
        rw [← hn.2]
        exact fun k => Exhausted_Filter p fuel k q.2 hex
  · intro j rs m1 m2 v hp hn
    obtain ⟨i1, hr, rfl⟩ := Map_pulls_reach f j it rs m1 hp
    obtain ⟨w, b, i2, hu, rfl, hrb⟩ := Map_Next_inv hn
    obtain ⟨j0, rs0, hp0⟩ := hr
    cases b with
    | true => simp at hrb
    | false => exact fun k => Exhausted_Map f k i2 (hs j0 rs0 i1 i2 w hp0 hu)
  · intro j rs m1 m2 v hp hn
    obtain ⟨i1, n1, hr, rfl⟩ := Take_pulls_reach ty j it n rs m1 hp
    rcases Take_Next_inv hn with ⟨hz, _, rfl⟩ | ⟨_, i2, hu, rfl⟩
    · exact Exhausted_of_fixed (Take_Next_nonpos ty i1 n1 hz)
    · obtain ⟨j0, rs0, hp0⟩ := hr
      exact fun k => Exhausted_Take ty k i2 _ (hs j0 rs0 i1 i2 v hp0 hu)

/-- Witness of C12: the combinators over the slice source `[3, 4, 5]`. -/
theorem C12_combinators_preserve_stability_witness :
    ExhaustionStable (Filter (FromSlice (Slice.mk [3, 4, 5])) (fun x => x % 2 == 0) 4)
      ∧ ExhaustionStable (Map (FromSlice (Slice.mk [3, 4, 5])) (fun x => x * 2))
      ∧ ExhaustionStable (Take ⟨true, 64⟩ (FromSlice (Slice.mk [3, 4, 5])) 2) :=
  C12_combinators_preserve_stability ⟨true, 64⟩ (FromSlice (Slice.mk [3, 4, 5]))
    (fun x => x % 2 == 0) (fun x => x * 2) 2 4 (FromSlice_stable (Slice.mk [3, 4, 5]))

/-- C13, as stated, fails: on `Take` of the empty slice with count `2`, the
upstream signals exhaustion, the call returns `(0, false)`, and the remaining
count has gone down from `2` to `1`. -/
theorem C13_take_counter_counterexample :
    ∃ tk, (Take ⟨true, 64⟩ (FromSlice (Slice.mk ([] : List Nat))) 2).Next
        = some ((0, false), tk)
      ∧ (FromSlice (Slice.mk ([] : List Nat))).Next
        = some ((0, false), FromSlice (Slice.mk []))
      ∧ tk.env.1 = 1 ∧ tk.env.1 ≠ 2 :=
  ⟨_, rfl, rfl, rfl, by decide⟩

/-- C13, amended (the counter is decremented on every call made while it is
positive): for every upstream iterator and every count `n` of the counter
type, a call of `Next` on `Take(it, n)` that returns has, when `n > 0`, pulled
the upstream once and lowered the count to `n - 1`, whether the upstream
yielded an element or signalled exhaustion; when `n <= 0` it has left the
count and the upstream unchanged. -/
theorem C13_take_counter_decrement [Inhabited T] (ty : IntType) (it : Iter σ T)
    (n : Int) (r : T × Bool) (tk : Iter (Int × Iter σ T) T) (hr : ty.inRange n)
    (hn : (Take ty it n).Next = some (r, tk)) :
    (0 < n → tk.env.1 = n - 1 ∧ ∃ it1, it.Next = some (r, it1) ∧ tk = Take ty it1 (n - 1))
      ∧ (n ≤ 0 → tk = Take ty it n ∧ r = (default, false)) := by
  rcases Take_Next_inv hn with ⟨hz, hr0, rfl⟩ | ⟨hpos, i1, hu, rfl⟩
  · exact ⟨fun h => absurd hz (by omega), fun _ => ⟨rfl, hr0⟩⟩
  · obtain ⟨hw, _⟩ := ty.wrap_pred n hr hpos
    refine ⟨fun _ => ⟨hw, i1, hu, by rw [hw]⟩, fun h => absurd hpos (by omega)⟩

/-- Witness of C13 amended: the count goes from `2` to `1` on a call in which
the empty slice signals exhaustion. -/
theorem C13_take_counter_decrement_witness :
    ((0 : Int) < 2 →
        (Take ⟨true, 64⟩ (FromSlice (Slice.mk ([] : List Nat))) 1).env.1 = 2 - 1
        ∧ ∃ it1, (FromSlice (Slice.mk ([] : List Nat))).Next = some ((0, false), it1)
          ∧ Take ⟨true, 64⟩ (FromSlice (Slice.mk ([] : List Nat))) 1
            = Take ⟨true, 64⟩ it1 (2 - 1))
      ∧ ((2 : Int) ≤ 0 →
        Take ⟨true, 64⟩ (FromSlice (Slice.mk ([] : List Nat))) 1
            = Take ⟨true, 64⟩ (FromSlice (Slice.mk ([] : List Nat))) 2
          ∧ ((0 : Nat), false) = (default, false)) :=
  C13_take_counter_decrement ⟨true, 64⟩ (FromSlice (Slice.mk ([] : List Nat))) 2
    (0, false) (Take ⟨true, 64⟩ (FromSlice (Slice.mk ([] : List Nat))) 1)
    (by decide) (by rfl)

/-- C14, as stated, fails: over an upstream that returns `(5, false)`, the
call of `Next` on `Filter` returns `(5, false)`, and `5` is not the zero
value. -/
theorem C14_filter_exhaustion_counterexample :
    (Filter fiveFalse (fun _ => true) 1).Next
        = some ((5, false), Filter fiveFalse (fun _ => true) 1)
      ∧ (5 : Nat) ≠ default :=
  ⟨rfl, by decide⟩

/-- C14, amended (Filter hands on the value the upstream returned): for every
upstream iterator and predicate, when a call of `Next` on `Filter(it, p)`
returns `(v, false)`, the upstream, after some run of pulls made by the call,
returned that same `(v, false)`; so `v` is the zero value whenever the upstream
returns the zero value alongside `false`. -/
theorem C14_filter_exhaustion_value [Inhabited T] (it : Iter σ T) (p : T → Bool)
    (fuel : Nat) (v : T) (m1 : Iter (Iter σ T) T)
    (h : (Filter it p fuel).Next = some ((v, false), m1)) :
    (∃ i1 i2, Reach it i1 ∧ i1.Next = some ((v, false), i2) ∧ m1 = Filter i2 p fuel)
      ∧ ((∀ (i1 i2 : Iter σ T) (w : T),
            Reach it i1 → i1.Next = some ((w, false), i2) → w = default) →
          v = default) := by
  rw [Filter_Next] at h
  cases hl : Filter.loop p fuel it with
  | none => simp [hl] at h
  | some q =>
    simp only [hl, Option.map_some', Option.some.injEq, Prod.mk.injEq] at h
    obtain ⟨i1, hr, hn⟩ := Filter_loop_inv p fuel it q.2 q.1 hl
    rw [h.1] at hn
    exact ⟨⟨i1, q.2, hr, hn, h.2.symm⟩, fun hz => hz i1 q.2 v hr hn⟩

/-- Witness of C14 amended: the upstream that returns `(5, false)`. -/
theorem C14_filter_exhaustion_value_witness :
    ∃ i1 i2, Reach fiveFalse i1 ∧ i1.Next = some ((5, false), i2)
      ∧ Filter fiveFalse (fun _ => true) 1 = Filter i2 (fun _ => true) 1 :=
  (C14_filter_exhaustion_value fiveFalse (fun _ => true) 1 5
    (Filter fiveFalse (fun _ => true) 1) (by rfl)).1

/-- C15 (map pulls one-to-one and never transforms on exhaustion): over any
upstream wrapped in a pull counter standing at `c`, a call of `Next` on
`Map(it, f)` is the instrumented body of the closure without its ghost count;
when the upstream returns `(v, true)` the call returns `(f(v), true)` after
one invocation of `f` and one upstream call; when the upstream returns
`(_, false)` it returns `(zero value, false)` after no invocation of `f` and
one upstream call; constructing `Map(it, f)` leaves the pull counter at `0`. -/
theorem C15_map_one_to_one [Inhabited R] (it : Iter σ T) (f : T → R) (c : Nat) :
    (Map (CountedFrom c it) f).Next
        = (Map.bodyCalls f (CountedFrom c it)).map (fun r => (r.1.1, Map r.1.2 f))
      ∧ (∀ (v : T) (it1 : Iter σ T), it.Next = some ((v, true), it1) →
          Map.bodyCalls f (CountedFrom c it)
            = some (((f v, true), CountedFrom (c + 1) it1), 1))
      ∧ (∀ (v : T) (it1 : Iter σ T), it.Next = some ((v, false), it1) →
          Map.bodyCalls f (CountedFrom c it)
            = some (((default, false), CountedFrom (c + 1) it1), 0))
      ∧ (Map (Counted it) f).env = Counted it
      ∧ pullCount (Map (Counted it) f).env = 0 := by
  refine ⟨Map_Next_bodyCalls _ f, ?_, ?_, rfl, rfl⟩
  · intro v it1 h
    rw [Map.bodyCalls, CountedFrom_Next, h]
    rfl
  · intro v it1 h
    rw [Map.bodyCalls, CountedFrom_Next, h]
    rfl

/-- Witness of C15 on the slice `[3]`, doubling: the first call returns
`(6, true)` after one invocation of `f`, the second `(0, false)` after none;
each makes one upstream call. -/
theorem C15_map_one_to_one_witness :
    Map.bodyCalls (fun x => x * 2) (CountedFrom 0 (FromSlice (Slice.mk [3])))
        = some (((6, true), CountedFrom 1 (FromSlice.atCursor (Slice.mk [3]) 1)), 1)
      ∧ Map.bodyCalls (fun x => x * 2)
          (CountedFrom 1 (FromSlice.atCursor (Slice.mk [3]) 1))
        = some (((0, false), CountedFrom 2 (FromSlice.atCursor (Slice.mk [3]) 1)), 0) :=
  ⟨(C15_map_one_to_one (FromSlice (Slice.mk [3])) (fun x => x * 2) 0).2.1 3
      (FromSlice.atCursor (Slice.mk [3]) 1) (by rfl),
   (C15_map_one_to_one (FromSlice.atCursor (Slice.mk [3]) 1) (fun x => x * 2) 1).2.2.1 0
      (FromSlice.atCursor (Slice.mk [3]) 1) (by rfl)⟩

/-- C16 (filter does not run ahead of demand): for every slice `s`, predicate
`p` and cursor `c <= len(s)`, one call of `Next` on `Filter(FromSlice(s), p)`
with loop budget above `len(s) - c`: if `i` is the least index `>= c` with
`p(s[i])`, it returns `(s[i], true)`, leaves the cursor at `i + 1`, and has
applied `p` to exactly `s[c], ..., s[i]`, once each and in order; if no index
`>= c` satisfies `p`, it returns `(zero value, false)`, leaves the cursor at
`len(s)`, and has applied `p` to exactly `s[c], ..., s[len(s) - 1]`. -/
theorem C16_filter_demand [Inhabited T] (s : Slice T) (p : T → Bool) (c fuel : Nat)
    (hc : c ≤ s.len) (hf : s.len - c < fuel) :
    (∀ (i : Nat) (hi : i < s.len), c ≤ i → p (s.toList.get ⟨i, hi⟩) = true →
        (∀ (j : Nat) (hj : j < s.len), c ≤ j → j < i →
          p (s.toList.get ⟨j, hj⟩) = false) →
        (Filter (FromSlice.atCursor s c) p fuel).Next
            = some ((s.toList.get ⟨i, hi⟩, true),
                Filter (FromSlice.atCursor s (i + 1)) p fuel)
          ∧ (Filter.loopLog p fuel (FromSlice.atCursor s c) []).map Prod.snd
            = some ((s.toList.drop c).take (i + 1 - c)))
      ∧ ((∀ (j : Nat) (hj : j < s.len), c ≤ j → p (s.toList.get ⟨j, hj⟩) = false) →
        (Filter (FromSlice.atCursor s c) p fuel).Next
            = some ((default, false), Filter (FromSlice.atCursor s s.len) p fuel)
          ∧ (Filter.loopLog p fuel (FromSlice.atCursor s c) []).map Prod.snd
            = some (s.toList.drop c)) := by
  constructor
  · intro i hi hci hp hmin
    have h := Filter_loopLog_found s p i hi hp (i - c) c (by omega) hmin fuel []
      (by omega)
    have e : i - c + 1 = i + 1 - c := by omega
    rw [List.nil_append, e] at h
    exact ⟨Filter_Next_of_loopLog p fuel _ h, by rw [h]; rfl⟩
  · intro hall
    have h := Filter_loopLog_none s p (s.len - c) c (by omega) hall fuel [] hf
    rw [List.nil_append] at h
    exact ⟨Filter_Next_of_loopLog p fuel _ h, by rw [h]; rfl⟩

/-- Witness of C16 on `[3, 5, 4, 6]` with the even numbers: from cursor `0` the
call returns `(4, true)`, leaves the cursor at `3`, and has applied `p` to
`3, 5, 4`; from cursor `4` it returns `(0, false)`. -/
theorem C16_filter_demand_witness :
    ((Filter (FromSlice.atCursor (Slice.mk [3, 5, 4, 6]) 0) (fun x => x % 2 == 0) 5).Next
          = some ((4, true),
              Filter (FromSlice.atCursor (Slice.mk [3, 5, 4, 6]) 3) (fun x => x % 2 == 0) 5)
        ∧ (Filter.loopLog (fun x => x % 2 == 0) 5
            (FromSlice.atCursor (Slice.mk [3, 5, 4, 6]) 0) []).map Prod.snd
          = some [3, 5, 4])
      ∧ (Filter (FromSlice.atCursor (Slice.mk [3, 5, 4, 6]) 4) (fun x => x % 2 == 0) 1).Next
          = some ((0, false),
              Filter (FromSlice.atCursor (Slice.mk [3, 5, 4, 6]) 4) (fun x => x % 2 == 0) 1) :=
  ⟨(C16_filter_demand (Slice.mk [3, 5, 4, 6]) (fun x => x % 2 == 0) 0 5
      (by decide) (by decide)).1 2 (by decide) (by decide) (by rfl)
      (fun j hj _ h2 => by
        have hj2 : j = 0 ∨ j = 1 := by omega
        rcases hj2 with rfl | rfl <;> simp [Slice.toList]),
   ((C16_filter_demand (Slice.mk [3, 5, 4, 6]) (fun x => x % 2 == 0) 4 1
      (by decide) (by decide)).2
      (fun j hj h1 => absurd hj (by
        have : (Slice.mk [3, 5, 4, 6] : Slice Nat).len = 4 := rfl
        omega))).1⟩

/-- C17 (pull semantics and index safety of the slice source): for every slice
`s`, nil and empty included, and every `k`, the first `k` calls of `Next` on
`FromSlice(s)` all return and leave the cursor at `min(k, len(s))`, within the
bounds of `s`; the call after them returns `(s[k], true)` when `k < len(s)`
and `(zero value, false)` when `k >= len(s)`; and every read of `s` at a
cursor below `len(s)` succeeds. -/
theorem C17_fromSlice_pull_semantics [Inhabited T] (s : Slice T) (k : Nat) :
    (∃ rs, (FromSlice s).pulls k = some (rs, FromSlice.atCursor s (min k s.len)))
      ∧ (FromSlice.atCursor s (min k s.len)).Next
        = some (if h : k < s.len
            then ((s.toList.get ⟨k, h⟩, true), FromSlice.atCursor s (k + 1))
            else ((default, false), FromSlice.atCursor s s.len))
      ∧ min k s.len ≤ s.len
      ∧ (∀ h : k < s.len, s.index k = some (s.toList.get ⟨k, h⟩)) := by
  refine ⟨FromSlice_pulls_min s k, ?_, Nat.min_le_right _ _, ?_⟩
  · by_cases h : k < s.len
    · rw [dif_pos h, Nat.min_eq_left (Nat.le_of_lt h)]
      exact FromSlice_Next_lt s k h
    · rw [dif_neg h, Nat.min_eq_right (Nat.le_of_not_lt h)]
      exact FromSlice_Next_ge s s.len (le_refl _)
  · intro h
    exact List.getElem?_eq_getElem h

/-- Witness of C17 on `[3, 4, 5]`: the second call returns `(4, true)`, read
at index `1`. -/
theorem C17_fromSlice_pull_semantics_witness :
    (FromSlice.atCursor (Slice.mk [3, 4, 5]) (min 1 (Slice.mk [3, 4, 5]).len)).Next
        = some ((4, true), FromSlice.atCursor (Slice.mk [3, 4, 5]) 2)
      ∧ (Slice.mk [3, 4, 5]).index 1 = some 4 :=
  ⟨(C17_fromSlice_pull_semantics (Slice.mk [3, 4, 5]) 1).2.1,
   (C17_fromSlice_pull_semantics (Slice.mk [3, 4, 5]) 1).2.2.2 (by decide)⟩

/-- C18 (take makes at most `n` upstream pulls in total): for every upstream
iterator wrapped in a pull counter, exhausted early or not, exhaustion-stable
or not, and every count `n` of the counter type, after any `k` calls of `Next`
on `Take(it, n)` the number of calls made to `it.Next()` is
`min(k, max(n, 0))`, hence at most `max(n, 0)`. -/
theorem C18_take_total_pulls [Inhabited T] (ty : IntType) (it : Iter σ T) (n : Int)
    (k : Nat) (rs : List (T × Bool)) (tk : Iter (Int × Iter (Nat × Iter σ T) T) T)
    (hr : ty.inRange n)
    (hrun : (Take ty (Counted it) n).pulls k = some (rs, tk)) :
    pullCount tk.env.2 = min k (max n 0).toNat
      ∧ (pullCount tk.env.2 : Int) ≤ max n 0 := by
  rw [Counted_eq_CountedFrom] at hrun
  obtain ⟨it1, ht⟩ := Take_counted_pulls ty k n 0 it rs tk hr hrun
  have hc : pullCount tk.env.2 = 0 + min k n.toNat := by
    rw [ht]
    rfl
  have hm : (max n 0).toNat = n.toNat := by omega
  rw [hc, hm]
  constructor
  · omega
  · omega

/-- Witness of C18: eight calls on `Take([3, 4, 5], 5)`, whose upstream is
exhausted after three elements, make five upstream calls. -/
theorem C18_take_total_pulls_witness :
    ∃ rs tk, (Take ⟨true, 64⟩ (Counted (FromSlice (Slice.mk [3, 4, 5]))) 5).pulls 8
        = some (rs, tk)
      ∧ pullCount tk.env.2 = 5
      ∧ pullCount tk.env.2 = min 8 (max (5 : Int) 0).toNat
      ∧ (pullCount tk.env.2 : Int) ≤ max 5 0 :=
  ⟨_, _, rfl, rfl,
    C18_take_total_pulls ⟨true, 64⟩ (FromSlice (Slice.mk [3, 4, 5])) 5 8 _ _
      (by decide) rfl⟩

/-- C19 (combinators compose like list operations): for every slice `s`,
function `f`, predicate `p` and count `n >= 0` of the counter type,
`ToSlice(Take(Filter(Map(FromSlice(s), f), p), n))` returns, once the loop
budgets exceed `len(s)`, the first `n` elements of the list obtained by
mapping `f` over `s` and keeping the elements that satisfy `p`; and for any
upstream iterator that yields the finite sequence `xs` and is exhausted after
it, `Filter`, `Map` and `Take` of it yield `filter p xs`, `map f xs` and the
`n`-prefix of `xs`, and are exhausted after them. -/
theorem C19_combinators_compose [Inhabited T] [Inhabited R] (ty : IntType) (n : Int)
    (f : T → R) (hr : ty.inRange n) :
    (∀ (s : Slice T) (p : R → Bool) (fi fo : Nat), 0 ≤ n → s.len < fi → s.len < fo →
        (ToSlice (Take ty (Filter (Map (FromSlice s) f) p fi) n) fo).map Prod.fst
          = some (Slice.mk (((s.toList.map f).filter p).take n.toNat)))
      ∧ (∀ (it : Iter σ T) (xs : List T) (p : T → Bool) (fuel : Nat),
          YieldsExactly it xs → xs.length < fuel →
          YieldsExactly (Filter it p fuel) (xs.filter p)
            ∧ YieldsExactly (Map it f) (xs.map f)
            ∧ YieldsExactly (Take ty it n) (xs.take n.toNat)) := by
  constructor
  · intro s p fi fo _ hfi hfo
    have hm := Map_produces f (FromSlice_produces_all s)
    have hlen : (s.toList.map f).length = s.len := by simp [Slice.len]
    have hfl := Filter_produces p hm fi (by rw [hlen]; exact hfi)
    obtain ⟨z1, tk, ht⟩ := Take_produces_prefix ty hfl n hr
    rw [ToSlice_produces ht fo ?_]
    · rfl
    · refine lt_of_le_of_lt (List.length_take_le' _ _) ?_
      refine lt_of_le_of_lt (List.length_filter_le _ _) ?_
      rw [hlen]
      exact hfo
  · intro it xs p fuel hy hf
    obtain ⟨it1, hp, he⟩ := Produces_of_YieldsExactly hy
    refine ⟨?_, ?_, ?_⟩
    · exact YieldsExactly_of_Produces (Filter_produces p hp fuel hf)
        (Exhausted_Filter_pos p (by omega) he)
    · exact YieldsExactly_of_Produces (Map_produces f hp)
        (fun k => Exhausted_Map f k it1 he)
    · obtain ⟨tk, hpt, het⟩ := Take_produces_exhausted ty hp rfl he n hr
      exact YieldsExactly_of_Produces hpt het

/-- Witness of C19: doubling `[1, 2, 3, 4, 5]`, keeping the multiples of four
and taking two gives `[4, 8]`; and the combinators over the slice source
`[3, 4, 5]`, which yields exactly `3, 4, 5`. -/
theorem C19_combinators_compose_witness :
    (ToSlice (Take ⟨true, 64⟩
        (Filter (Map (FromSlice (Slice.mk [1, 2, 3, 4, 5])) (fun x => x * 2))
          (fun y => y % 4 == 0) 6) 2) 6).map Prod.fst
        = some (Slice.mk [4, 8])
      ∧ (YieldsExactly (Filter (FromSlice (Slice.mk [3, 4, 5])) (fun x => x % 2 == 1) 4)
            ([3, 4, 5].filter (fun x => x % 2 == 1))
          ∧ YieldsExactly (Map (FromSlice (Slice.mk [3, 4, 5])) (fun x => x * 2))
            ([3, 4, 5].map (fun x => x * 2))
          ∧ YieldsExactly (Take ⟨true, 64⟩ (FromSlice (Slice.mk [3, 4, 5])) 2)
            ([3, 4, 5].take (2 : Int).toNat)) :=
  ⟨(@C19_combinators_compose Nat Nat Nat _ _ ⟨true, 64⟩ 2 (fun x => x * 2)
      (by decide)).1
      (Slice.mk [1, 2, 3, 4, 5]) (fun y => y % 4 == 0) 6 6 (by decide) (by decide)
      (by decide),
   (@C19_combinators_compose Nat Nat Nat _ _ ⟨true, 64⟩ 2 (fun x => x * 2)
      (by decide)).2
      (FromSlice (Slice.mk [3, 4, 5])) [3, 4, 5] (fun x => x % 2 == 1) 4
      (YieldsExactly_of_Produces (FromSlice_produces_all (Slice.mk [3, 4, 5]))
        (Exhausted_of_fixed (FromSlice_Next_ge (Slice.mk [3, 4, 5]) 3 (le_refl 3))))
      (by decide)⟩

/-- C20 (the counter of take never wraps around): for every integer type,
signed or unsigned and of any width, with arithmetic modulo `2 ^ bits`, and
every initial count `n` of that type: a decrement of a positive count does not
wrap; after any `k` calls of `Next` on `Take(it, n)` the count is
`n - min(k, n)` when `n > 0` and `n` when `n <= 0`; it stays a value of the
type, and from a positive start it stays between `0` and `n`. -/
theorem C20_take_counter_no_wrap [Inhabited T] (ty : IntType) (it : Iter σ T)
    (n : Int) (k : Nat) (rs : List (T × Bool)) (tk : Iter (Int × Iter σ T) T)
    (hr : ty.inRange n) (hrun : (Take ty it n).pulls k = some (rs, tk)) :
    (∀ m : Int, ty.inRange m → 0 < m → ty.wrap (m - 1) = m - 1)
      ∧ (0 < n → tk.env.1 = n - min (k : Int) n)
      ∧ (n ≤ 0 → tk.env.1 = n)
      ∧ ty.inRange tk.env.1
      ∧ (0 < n → 0 ≤ tk.env.1 ∧ tk.env.1 ≤ n) := by
  obtain ⟨up1, ht⟩ := Take_pulls_counter ty k n it rs tk hr hrun
  have hc : tk.env.1 = n - ((min k n.toNat : Nat) : Int) := by
    rw [ht]
    rfl
  have hrange : ty.inRange tk.env.1 := by
    rw [hc]
    unfold IntType.inRange at hr ⊢
    by_cases hz : n ≤ 0
    · have h0 : n.toNat = 0 := Int.toNat_eq_zero.mpr hz
      simpa [h0] using hr
    · have hmin : ty.minVal ≤ 0 := by
        unfold IntType.minVal
        split
        · have : (0 : Int) < (2 : Int) ^ (ty.bits - 1) := by positivity
          omega
        · exact le_refl 0
      constructor <;> omega
  refine ⟨fun m hm hpos => (ty.wrap_pred m hm hpos).1, ?_, ?_, hrange, ?_⟩
  · intro hpos
    rw [hc]
    omega
  · intro hz
    rw [hc]
    omega
  · intro hpos
    rw [hc]
    constructor <;> omega

/-- Witness of C20: an unsigned 8-bit counter starting at `2`, after five
calls on the natural numbers, stands at `0`. -/
theorem C20_take_counter_no_wrap_witness :
    ∃ rs tk, (Take ⟨false, 8⟩ naturals 2).pulls 5 = some (rs, tk)
      ∧ tk.env.1 = 0
      ∧ ((0 : Int) < 2 → tk.env.1 = 2 - min ((5 : Nat) : Int) 2)
      ∧ IntType.inRange ⟨false, 8⟩ tk.env.1 :=
  ⟨_, _, rfl, rfl,
    (C20_take_counter_no_wrap ⟨false, 8⟩ naturals 2 5 _ _ (by decide) rfl).2.1,
    (C20_take_counter_no_wrap ⟨false, 8⟩ naturals 2 5 _ _ (by decide) rfl).2.2.2.1⟩

end Iters
